import Mathlib

/-!
# phadump: `convert-new.c`

A shallow embedding of `src/convert-new.c` (the PHA ".dat" to text converter)
and the properties of its specification.

Modelling decisions, all stated where they are used:

* a byte is a `Fin 256`; a file is a `List Byte`; a path and every piece of
  console text is a `String`, `strlen` being the length of its UTF-8 encoding;
* `int` and `unsigned` are 32 bits wide, `int` is two's complement and a left
  shift of an `int` wraps around;
* the file system maps a path to what `fopen` finds there; the C library
  calls (`fopen`, `fread`, `fprintf`, `fclose`, `printf`) are the primitives
  of the model, each one leaving an `Event` in the trace of the `World`;
  a read delivers the bytes that are left, a write to an open file and a
  close do not fail (`convertW` is `convert` where the writes may fail);
* the host byte order is a parameter (`Endian`): it decides which value a
  `uint32_t` object has whose four bytes `fread` has stored.
-/

namespace Phadump

/-! ## Bytes, words and byte order -/

abbrev Byte := Fin 256

/-- Byte order of the host that runs the program. -/
inductive Endian
  | little
  | big
  deriving DecidableEq, Repr

/-- Value of a `uint32_t` object whose bytes in memory are `b0 b1 b2 b3`,
lowest address first. -/
def load32 : Endian → Byte → Byte → Byte → Byte → Nat
  | .little, b0, b1, b2, b3 => b0.val + 2 ^ 8 * b1.val + 2 ^ 16 * b2.val + 2 ^ 24 * b3.val
  | .big, b0, b1, b2, b3 => b3.val + 2 ^ 8 * b2.val + 2 ^ 16 * b1.val + 2 ^ 24 * b0.val

/-- Byte at address offset `k` (0..3) of a `uint32_t` object holding `v`:
`((uint8_t *)&v)[k]`. -/
def byteAt : Endian → Nat → Nat → Byte
  | .little, v, k => Fin.ofNat (v / 2 ^ (8 * k))
  | .big, v, k => Fin.ofNat (v / 2 ^ (8 * (3 - k)))

/-- Reduction of a mathematical integer to a 32-bit two's complement `int`. -/
def intWrap (x : Int) : Int := (x + 2 ^ 31) % 2 ^ 32 - 2 ^ 31

/-- The C expression `a << k` on an `int`: `u[1] << 8` promotes the byte to `int`. -/
def shlInt (a : Int) (k : Nat) : Int := intWrap (a * 2 ^ k)

/-- The cast `(uint32_t)x`. -/
def toU32 (x : Int) : Nat := (x % 2 ^ 32).toNat

/-- Source: `le32toh` (lines 34-41). -/
def le32toh (e : Endian) (le32 : Nat) : Nat :=
  let u : Nat → Byte := byteAt e le32
  toU32 (u 0).val
    ||| toU32 (shlInt (u 1).val 8)
    ||| toU32 (shlInt (u 2).val 16)
    ||| toU32 (shlInt (u 3).val 24)

/-! ## Text -/

def POSTFIX : String := ".new.txt"

def TERMINATOR : String := "\r\n"

/-- The C library `strlen`: number of bytes before the terminating NUL. -/
def strlen (s : String) : Nat := s.utf8ByteSize

/-- The cast `(unsigned)v` of a `uint32_t`. -/
def toUnsigned (v : Nat) : Nat := v % 2 ^ 32

/-- Conversion `%u` of `printf`: unsigned decimal. -/
def fmtU (v : Nat) : String := Nat.repr v

/-- Conversion `%4u`: right-justified in a field of at least 4 characters. -/
def fmtU4 (v : Nat) : String :=
  String.mk (List.replicate (4 - (fmtU v).length) ' ') ++ fmtU v

/-- Conversion `%-16s`: left-justified in a field of at least 16 bytes. -/
def fmtS16 (s : String) : String :=
  s ++ String.mk (List.replicate (16 - strlen s) ' ')

/-- Bytes of a piece of ASCII text (the program writes digits, CR and LF). -/
def bytesOf (s : String) : List Byte := s.data.map (fun c => Fin.ofNat c.toNat)

/-- Text of the progress line printed by `convert` (line 94). -/
def progressLine (path : String) (size live : Nat) : String :=
  "converting: " ++ fmtS16 path ++ "\t" ++ fmtU4 (toUnsigned size) ++ " channels\t"
    ++ fmtU4 (toUnsigned live) ++ " live seconds\n"

/-- Text of a short-read diagnostic: `"fread: %s: %s\n"`. -/
def freadDiag (path what : String) : String := "fread: " ++ path ++ ": " ++ what ++ "\n"

/-- Text of an open-failure diagnostic: `"fopen: %s: %s\n"`. -/
def fopenDiag (path reason : String) : String := "fopen: " ++ path ++ ": " ++ reason ++ "\n"

/-- Text of the path-length diagnostic: `"%s: %s\n"` with `"path too long"`. -/
def tooLongDiag (path : String) : String := path ++ ": " ++ "path too long" ++ "\n"

/-! ## The world: file system and trace -/

/-- The file system as `fopen` sees it. `rd path` is what `fopen(path, "rb")`
finds: the bytes of the file, or the `strerror(errno)` text of the failure.
`wr path` is `none` when `fopen(path, "wb")` succeeds, else the failure text. -/
structure FS where
  rd : String → Except String (List Byte)
  wr : String → Option String

/-- One call of the C library made by the program, with its outcome. A stream
is named by the path it was opened on. -/
inductive Event
  | fopen (path mode : String) (ok : Bool)
  | fread (path : String) (want got : Nat)
  | fprintf (path text : String)
  | fclose (path : String)
  | stdout (text : String)
  | stderr (text : String)
  deriving DecidableEq, Repr

structure World where
  fs : FS
  trace : List Event

/-- Append one event to the trace. -/
def World.emit (w : World) (ev : Event) : World :=
  { w with trace := w.trace ++ [ev] }

/-- Bytes of the file at `path`; a file that cannot be read has none. -/
def FS.bytes (fs : FS) (path : String) : List Byte :=
  match fs.rd path with
  | .ok bs => bs
  | .error _ => []

/-- File system in which the file at `path` holds `bs`. -/
def FS.set (fs : FS) (path : String) (bs : List Byte) : FS :=
  { fs with rd := fun p => if p = path then .ok bs else fs.rd p }

/-- The call `fopen(path, "rb")`: the unread bytes of the new stream, or the
reason of the failure. -/
def fopen_rb (path : String) (w : World) : Except String (List Byte) × World :=
  match w.fs.rd path with
  | .ok bs => (.ok bs, w.emit (.fopen path "rb" true))
  | .error reason => (.error reason, w.emit (.fopen path "rb" false))

/-- The call `fopen(path, "wb")`: on success the file exists and is empty. -/
def fopen_wb (path : String) (w : World) : Option String × World :=
  match w.fs.wr path with
  | none => (none, { fs := w.fs.set path [], trace := w.trace ++ [.fopen path "wb" true] })
  | some reason => (some reason, w.emit (.fopen path "wb" false))

/-- The call `fread(ptr, 1, n, stream)` on a stream whose unread bytes are
`s`: the bytes stored at `ptr` (their number is the value returned) and the
bytes left unread. -/
def fread (n : Nat) (s : List Byte) : List Byte × List Byte := (s.take n, s.drop n)

/-- The call `fprintf(stream, ...)` on the output stream opened on `path`,
`text` being the formatted text: it is appended to the file. -/
def World.fprintf (w : World) (path text : String) : World :=
  { fs := w.fs.set path (w.fs.bytes path ++ bytesOf text),
    trace := w.trace ++ [.fprintf path text] }

/-! ## `convert` -/

/-- Label `convert_cleanup_fin` (lines 113-114). -/
def convert_cleanup_fin (path : String) (w : World) : World :=
  w.emit (.fclose path)

/-- Label `convert_cleanup_fout` (lines 110-114), falling through to
`convert_cleanup_fin`. -/
def convert_cleanup_fout (path buf : String) (w : World) : World :=
  convert_cleanup_fin path (w.emit (.fclose buf))

/-- The loop `for(i = 0; i < size; ++i)` of `convert` (lines 98-107) followed
by the cleanup it reaches. `fuel` bounds the number of evaluations of the loop
condition, `i` is the 32-bit index, `fin` the unread bytes of the input. -/
def counterLoop (e : Endian) (path buf : String) (size : Nat) :
    Nat → Nat → List Byte → World → Option World
  | 0, _, _, _ => none
  | fuel + 1, i, fin, w =>
    if i < size then
      match fread 4 fin with
      | ([b0, b1, b2, b3], rest) =>
        let val := le32toh e (load32 e b0 b1 b2 b3)
        counterLoop e path buf size fuel ((i + 1) % 2 ^ 32) rest
          ((w.emit (.fread path 4 4)).fprintf buf (fmtU (toUnsigned val) ++ TERMINATOR))
      | (got, _) =>
        some (convert_cleanup_fout path buf
          ((w.emit (.fread path 4 got.length)).emit
            (.stderr (freadDiag path "error reading counter value"))))
    else some (convert_cleanup_fout path buf w)

/-- Source: `convert` (lines 44-115). `FILENAME_MAX` is the constant of
`<stdio.h>`. The result is `none` only if the counter loop runs out of fuel;
the fuel given is the number of values of the 32-bit index. -/
def convert (FILENAME_MAX : Nat) (e : Endian) (path : String) (w : World) : Option World :=
  if strlen path + strlen POSTFIX > FILENAME_MAX then
    some (w.emit (.stderr (tooLongDiag path)))
  else
    let buf := path ++ ".new.txt"
    match fopen_rb path w with
    | (.error reason, w) => some (w.emit (.stderr (fopenDiag path reason)))
    | (.ok fin, w) =>
      match fopen_wb buf w with
      | (some reason, w) =>
        some (convert_cleanup_fin path (w.emit (.stderr (fopenDiag buf reason))))
      | (none, w) =>
        match fread 4 fin with
        | ([b0, b1, b2, b3], fin) =>
          let size := le32toh e (load32 e b0 b1 b2 b3)
          let w := w.emit (.fread path 4 4)
          match fread 2 fin with
          | ([_, _], fin) =>
            let w := w.emit (.fread path 2 2)
            match fread 4 fin with
            | ([l0, l1, l2, l3], fin) =>
              let live := le32toh e (load32 e l0 l1 l2 l3)
              let w := (w.emit (.fread path 4 4)).emit (.stdout (progressLine path size live))
              counterLoop e path buf size (2 ^ 32) 0 fin w
            | (got, _) =>
              some (convert_cleanup_fout path buf
                ((w.emit (.fread path 4 got.length)).emit
                  (.stderr (freadDiag path "error reading live time"))))
          | (got, _) =>
            some (convert_cleanup_fout path buf
              ((w.emit (.fread path 2 got.length)).emit
                (.stderr (freadDiag path "error reading gap bytes"))))
        | (got, _) =>
          some (convert_cleanup_fout path buf
            ((w.emit (.fread path 4 got.length)).emit
              (.stderr (freadDiag path "error reading size"))))

/-! ## `main` -/

/-- The loop `for(i = 1; i < argc; ++i) convert(argv[i]);` of `main`
(lines 126-127); `argc` is the length of `argv`. -/
def mainLoop (FILENAME_MAX : Nat) (e : Endian) (argv : List String) :
    Nat → Nat → World → Option World
  | 0, _, _ => none
  | fuel + 1, i, w =>
    if h : i < argv.length then
      match convert FILENAME_MAX e (argv.get ⟨i, h⟩) w with
      | some w1 => mainLoop FILENAME_MAX e argv fuel (i + 1) w1
      | none => none
    else some w

/-- Source: `main` (lines 117-129): the exit status and the world left. -/
def main (FILENAME_MAX : Nat) (e : Endian) (argv : List String) (w : World) :
    Option (Int × World) :=
  if argv.length = 1 then
    some (1, w.emit (.stderr ("usage: " ++ argv.headD "" ++ " <datfiles>\n")))
  else
    match mainLoop FILENAME_MAX e argv (argv.length + 1) 1 w with
    | some w1 => some (0, w1)
    | none => none

/-! ## Vocabulary of the specification -/

/-- Little-endian value of four bytes, least significant first. -/
def le32 (b0 b1 b2 b3 : Byte) : Nat :=
  b0.val + 2 ^ 8 * b1.val + 2 ^ 16 * b2.val + 2 ^ 24 * b3.val

/-- Little-endian 32-bit value at offsets `off .. off+3` of a byte sequence
(a missing byte counts as 0). -/
def le32At (inp : List Byte) (off : Nat) : Nat :=
  le32 (inp.getD off 0) (inp.getD (off + 1) 0) (inp.getD (off + 2) 0) (inp.getD (off + 3) 0)

/-- Values of the leading complete 4-byte groups of `bs`, at most `k` of them. -/
def decodeCounters : Nat → List Byte → List Nat
  | k + 1, b0 :: b1 :: b2 :: b3 :: rest => le32 b0 b1 b2 b3 :: decodeCounters k rest
  | _, _ => []

/-- World after the counters `vals` have been read and written, one line each. -/
def writeCounters (path buf : String) : List Nat → World → World
  | [], w => w
  | v :: vs, w =>
    writeCounters path buf vs ((w.emit (.fread path 4 4)).fprintf buf (fmtU v ++ TERMINATOR))

/-- End of the counter loop on the unread bytes `fin` with `k` counters
expected: nothing more when all were there, else the short read and its
diagnostic. -/
def loopTail (path : String) (k : Nat) (fin : List Byte) (w : World) : World :=
  if fin.length < 4 * k then
    (w.emit (.fread path 4 (fin.length % 4))).emit
      (.stderr (freadDiag path "error reading counter value"))
  else w

/-- Texts written to standard error, in order. -/
def diagnostics : List Event → List String
  | [] => []
  | .stderr t :: evs => t :: diagnostics evs
  | _ :: evs => diagnostics evs

/-- Texts written to standard output, in order. -/
def console : List Event → List String
  | [] => []
  | .stdout t :: evs => t :: console evs
  | _ :: evs => console evs

/-- Text of the output lines of the counters `vals`: decimal value, terminator. -/
def linesText : List Nat → String
  | [] => ""
  | v :: vs => fmtU v ++ TERMINATOR ++ linesText vs

/-- Events of reading and writing the counters `vals`. -/
def counterEvents (path buf : String) : List Nat → List Event
  | [] => []
  | v :: vs => .fread path 4 4 :: .fprintf buf (fmtU v ++ TERMINATOR) :: counterEvents path buf vs

/-- Events that end the counter loop, see `loopTail`. -/
def tailEvents (path : String) (k : Nat) (fin : List Byte) : List Event :=
  if fin.length < 4 * k then
    [.fread path 4 (fin.length % 4), .stderr (freadDiag path "error reading counter value")]
  else []

/-- Counters that `convert` transcribes from the input `inp`: the complete
4-byte groups from offset 10 on, at most as many as the channel count. -/
def counterValues (inp : List Byte) : List Nat :=
  if inp.length < 10 then [] else decodeCounters (le32At inp 0) (inp.drop 10)

/-- Events of `convert` between the two opens and the two closes, as a
function of the input bytes. -/
def bodyEvents (path buf : String) (inp : List Byte) : List Event :=
  if inp.length < 4 then
    [.fread path 4 inp.length, .stderr (freadDiag path "error reading size")]
  else if inp.length < 6 then
    [.fread path 4 4, .fread path 2 (inp.length - 4),
      .stderr (freadDiag path "error reading gap bytes")]
  else if inp.length < 10 then
    [.fread path 4 4, .fread path 2 2, .fread path 4 (inp.length - 6),
      .stderr (freadDiag path "error reading live time")]
  else
    [.fread path 4 4, .fread path 2 2, .fread path 4 4,
      .stdout (progressLine path (le32At inp 0) (le32At inp 6))]
      ++ counterEvents path buf (counterValues inp)
      ++ tailEvents path (le32At inp 0) (inp.drop 10)

/-! ## Worlds used as examples -/

/-- File system holding one file, `bs` at `path`, where every file can be created. -/
def FS.single (path : String) (bs : List Byte) : FS :=
  { rd := fun p => if p = path then .ok bs else .error "No such file or directory",
    wr := fun _ => none }

/-- World at program start on the file system `fs`. -/
def World.init (fs : FS) : World := { fs := fs, trace := [] }

/-- The input of the example of the specification: count 2, gap FF FF,
live time 16, counters 42 and 100. -/
def exampleInput : List Byte :=
  [0x02, 0, 0, 0, 0xFF, 0xFF, 0x10, 0, 0, 0, 0x2A, 0, 0, 0, 0x64, 0, 0, 0]

/-! ## Vocabulary for the batch and for the handles -/

/-- Conversions of the paths `ps` one after the other, each one started with
an empty trace on the file system left by the one before: all the events, in
order, and the file system left. -/
def batch (FM : Nat) (e : Endian) : List String → FS → Option (List Event × FS)
  | [], fs => some ([], fs)
  | p :: ps, fs =>
    match convert FM e p { fs := fs, trace := [] } with
    | some w1 =>
      match batch FM e ps w1.fs with
      | some (evs, fs2) => some (w1.trace ++ evs, fs2)
      | none => none
    | none => none

/-- Streams opened with success, in order (a stream is named by its path). -/
def opened : List Event → List String
  | [] => []
  | .fopen p _ true :: evs => p :: opened evs
  | _ :: evs => opened evs

/-- Streams closed, in order. -/
def closed : List Event → List String
  | [] => []
  | .fclose p :: evs => p :: closed evs
  | _ :: evs => closed evs

/-- Stream discipline of a trace, `st` being the streams open at its start,
the latest first: a read or a write goes to an open stream, a close closes the
stream opened latest among those still open, and at the end no stream is open. -/
def balanced : List String → List Event → Bool
  | st, [] => st.isEmpty
  | st, .fopen p _ true :: evs => balanced (p :: st) evs
  | st, .fopen _ _ false :: evs => balanced st evs
  | st, .fread p _ _ :: evs => st.contains p && balanced st evs
  | st, .fprintf p _ :: evs => st.contains p && balanced st evs
  | [], .fclose _ :: _ => false
  | q :: st, .fclose p :: evs => (p == q) && balanced st evs
  | st, .stdout _ :: evs => balanced st evs
  | st, .stderr _ :: evs => balanced st evs

/-- An event that is neither an open nor a close. -/
def Event.isUse : Event → Bool
  | .fopen _ _ _ => false
  | .fclose _ => false
  | _ => true

/-- Stream an event reads or writes, if any. -/
def Event.stream : Event → Option String
  | .fread p _ _ => some p
  | .fprintf p _ => some p
  | _ => none

/-- Number of bytes that the reads of a trace have taken from their streams. -/
def consumed : List Event → Nat
  | [] => 0
  | .fread _ _ got :: evs => got + consumed evs
  | _ :: evs => consumed evs

/-- File system holding one file, `bs` at `path`, where no file can be created
or written. -/
def FS.readOnly (path : String) (bs : List Byte) : FS :=
  { rd := fun p => if p = path then .ok bs else .error "No such file or directory",
    wr := fun _ => some "Permission denied" }

/-! ## Writes that may fail -/

/-- The call `fprintf(stream, ...)` on the output stream when the environment
may refuse the write: with `ok` the text is appended to the file and the
number of bytes written is returned; without it the file is left as it is
and the value returned is negative. The event records the call. -/
def World.fprintfMay (w : World) (ok : Bool) (path text : String) : World × Int :=
  if ok then (w.fprintf path text, ((bytesOf text).length : Int))
  else ({ w with trace := w.trace ++ [.fprintf path text] }, -1)

/-- The counter loop of `convert` (lines 98-107) in an environment where the
write made at index `i` succeeds or fails as `wok i` says. As in the source,
the value returned by `fprintf` is not looked at. -/
def counterLoopW (wok : Nat → Bool) (e : Endian) (path buf : String) (size : Nat) :
    Nat → Nat → List Byte → World → Option World
  | 0, _, _, _ => none
  | fuel + 1, i, fin, w =>
    if i < size then
      match fread 4 fin with
      | ([b0, b1, b2, b3], rest) =>
        let val := le32toh e (load32 e b0 b1 b2 b3)
        counterLoopW wok e path buf size fuel ((i + 1) % 2 ^ 32) rest
          ((w.emit (.fread path 4 4)).fprintfMay (wok i) buf
            (fmtU (toUnsigned val) ++ TERMINATOR)).1
      | (got, _) =>
        some (convert_cleanup_fout path buf
          ((w.emit (.fread path 4 got.length)).emit
            (.stderr (freadDiag path "error reading counter value"))))
    else some (convert_cleanup_fout path buf w)

/-- Source: `convert` (lines 44-115) in an environment where the writes to the
output file may fail, see `counterLoopW`; everything else as in `convert`. -/
def convertW (wok : Nat → Bool) (FILENAME_MAX : Nat) (e : Endian) (path : String)
    (w : World) : Option World :=
  if strlen path + strlen POSTFIX > FILENAME_MAX then
    some (w.emit (.stderr (tooLongDiag path)))
  else
    let buf := path ++ ".new.txt"
    match fopen_rb path w with
    | (.error reason, w) => some (w.emit (.stderr (fopenDiag path reason)))
    | (.ok fin, w) =>
      match fopen_wb buf w with
      | (some reason, w) =>
        some (convert_cleanup_fin path (w.emit (.stderr (fopenDiag buf reason))))
      | (none, w) =>
        match fread 4 fin with
        | ([b0, b1, b2, b3], fin) =>
          let size := le32toh e (load32 e b0 b1 b2 b3)
          let w := w.emit (.fread path 4 4)
          match fread 2 fin with
          | ([_, _], fin) =>
            let w := w.emit (.fread path 2 2)
            match fread 4 fin with
            | ([l0, l1, l2, l3], fin) =>
              let live := le32toh e (load32 e l0 l1 l2 l3)
              let w := (w.emit (.fread path 4 4)).emit (.stdout (progressLine path size live))
              counterLoopW wok e path buf size (2 ^ 32) 0 fin w
            | (got, _) =>
              some (convert_cleanup_fout path buf
                ((w.emit (.fread path 4 got.length)).emit
                  (.stderr (freadDiag path "error reading live time"))))
          | (got, _) =>
            some (convert_cleanup_fout path buf
              ((w.emit (.fread path 2 got.length)).emit
                (.stderr (freadDiag path "error reading gap bytes"))))
        | (got, _) =>
          some (convert_cleanup_fout path buf
            ((w.emit (.fread path 4 got.length)).emit
              (.stderr (freadDiag path "error reading size"))))

/-! ## Reading the output back -/

/-- Reading of a text of decimal numbers, each followed by CR LF: the numbers
in order. `acc` is the value of the digits of the current line read so far;
a last line without terminator is dropped. -/
def parseLines : Nat → List Byte → List Nat
  | _, [] => []
  | _, [_] => []
  | acc, c :: l :: rest =>
    if c.val = 13 ∧ l.val = 10 then acc :: parseLines 0 rest
    else parseLines (10 * acc + (c.val - 48)) (l :: rest)

/-- Value of a string of decimal digits, continuing from `acc`. -/
def decValue (cs : List Char) (acc : Nat) : Nat :=
  cs.foldl (fun a c => 10 * a + (c.toNat - 48)) acc

/-! ## Iterations of the counter loop -/

/-- Values of the index `i` at the increments `++i` of the counter loop, in
order: the control flow of `counterLoop` without its effects. -/
def loopIndices (size : Nat) : Nat → Nat → List Byte → Option (List Nat)
  | 0, _, _ => none
  | fuel + 1, i, fin =>
    if i < size then
      match fread 4 fin with
      | ([_, _, _, _], rest) =>
        match loopIndices size fuel ((i + 1) % 2 ^ 32) rest with
        | some is => some (i :: is)
        | none => none
      | _ => some []
    else some []

/-- Number of calls of `fread` in a trace. -/
def reads : List Event → Nat
  | [] => 0
  | .fread _ _ _ :: evs => reads evs + 1
  | _ :: evs => reads evs

/-! ## The path buffer -/

/-- Size in bytes of `char buf[FILENAME_MAX + 1]` (line 46). -/
def bufSize (FILENAME_MAX : Nat) : Nat := FILENAME_MAX + 1

/-- Indices of `dst` that `strcpy(dst, src)` writes: one for each byte of
`src`, one for the terminating NUL. -/
def strcpyWrites (src : String) : List Nat := List.range (strlen src + 1)

/-- Indices of `dst` that `strcat(dst, src)` writes when `dst` holds the
string `old`: from the NUL of `old` on, one for each byte of `src`, one for
the new NUL. -/
def strcatWrites (old src : String) : List Nat :=
  (List.range (strlen src + 1)).map (fun j => strlen old + j)

/-! # Proofs

## Byte order -/

theorem toU32_shlInt (b : Byte) (k : Nat) (hk : k ≤ 24) :
    toU32 (shlInt b.val k) = b.val * 2 ^ k := by
  have hb := b.isLt
  have h1 : (2:Nat) ^ k ≤ 2 ^ 24 := Nat.pow_le_pow_right (by decide) hk
  have h2 : b.val * 2 ^ k < 2 ^ 32 := by
    calc b.val * 2 ^ k ≤ 255 * 2 ^ 24 := Nat.mul_le_mul (by omega) h1
      _ < 2 ^ 32 := by norm_num
  unfold toU32 shlInt intWrap
  generalize hx : b.val * 2 ^ k = x at h2
  have : ((b.val : Int) * 2 ^ k) = (x : Int) := by rw [← hx]; push_cast; rfl
  rw [this]
  omega

theorem byteAt_load32 (e : Endian) (b0 b1 b2 b3 : Byte) :
    byteAt e (load32 e b0 b1 b2 b3) 0 = b0 ∧ byteAt e (load32 e b0 b1 b2 b3) 1 = b1 ∧
    byteAt e (load32 e b0 b1 b2 b3) 2 = b2 ∧ byteAt e (load32 e b0 b1 b2 b3) 3 = b3 := by
  have h0 := b0.isLt
  have h1 := b1.isLt
  have h2 := b2.isLt
  have h3 := b3.isLt
  cases e <;> simp only [byteAt, load32, Fin.ofNat] <;>
    refine ⟨?_, ?_, ?_, ?_⟩ <;> apply Fin.ext <;> simp only [Fin.val_mk] <;> norm_num <;> omega

theorem or_eq_sum (a b c d : Nat) (ha : a < 256) (hb : b < 256) (hc : c < 256) :
    a ||| b * 2 ^ 8 ||| c * 2 ^ 16 ||| d * 2 ^ 24
      = a + 2 ^ 8 * b + 2 ^ 16 * c + 2 ^ 24 * d := by
  have e1 : a ||| b * 2 ^ 8 = 2 ^ 8 * b + a := by
    rw [Nat.mul_add_lt_is_or (by omega) b, Nat.or_comm, Nat.mul_comm]
  have e2 : (2 ^ 8 * b + a) ||| c * 2 ^ 16 = 2 ^ 16 * c + (2 ^ 8 * b + a) := by
    rw [Nat.mul_add_lt_is_or (by omega) c, Nat.or_comm, Nat.mul_comm]
  have e3 : (2 ^ 16 * c + (2 ^ 8 * b + a)) ||| d * 2 ^ 24
      = 2 ^ 24 * d + (2 ^ 16 * c + (2 ^ 8 * b + a)) := by
    rw [Nat.mul_add_lt_is_or (by omega) d, Nat.or_comm, Nat.mul_comm]
  rw [e1, e2, e3]; omega

theorem le32toh_load32 (e : Endian) (b0 b1 b2 b3 : Byte) :
    le32toh e (load32 e b0 b1 b2 b3) = le32 b0 b1 b2 b3 := by
  obtain ⟨h0, h1, h2, h3⟩ := byteAt_load32 e b0 b1 b2 b3
  simp only [le32toh, h0, h1, h2, h3, le32]
  rw [toU32_shlInt b1 8 (by decide), toU32_shlInt b2 16 (by decide),
    toU32_shlInt b3 24 (by decide)]
  have : toU32 (b0.val : Int) = b0.val := by
    have := b0.isLt
    unfold toU32; omega
  rw [this]
  exact or_eq_sum _ _ _ _ b0.isLt b1.isLt b2.isLt

theorem le32_lt (b0 b1 b2 b3 : Byte) : le32 b0 b1 b2 b3 < 2 ^ 32 := by
  have h0 := b0.isLt
  have h1 := b1.isLt
  have h2 := b2.isLt
  have h3 := b3.isLt
  unfold le32; omega

theorem toUnsigned_le32 (b0 b1 b2 b3 : Byte) :
    toUnsigned (le32 b0 b1 b2 b3) = le32 b0 b1 b2 b3 :=
  Nat.mod_eq_of_lt (le32_lt b0 b1 b2 b3)

/-! ## The counter loop -/

theorem loopTail_cons4 (path : String) (k : Nat) (b0 b1 b2 b3 : Byte) (rest : List Byte)
    (w : World) :
    loopTail path (k + 1) (b0 :: b1 :: b2 :: b3 :: rest) w = loopTail path k rest w := by
  have hmod : (rest.length + 1 + 1 + 1 + 1) % 4 = rest.length % 4 := by omega
  by_cases h : rest.length < 4 * k
  · have h2 : rest.length + 1 + 1 + 1 + 1 < 4 * (k + 1) := by omega
    simp only [loopTail, List.length, h, h2, if_true, hmod]
  · have h2 : ¬ rest.length + 1 + 1 + 1 + 1 < 4 * (k + 1) := by omega
    simp only [loopTail, List.length, h, h2, if_false]

theorem counterLoop_eq (e : Endian) (path buf : String) (size : Nat) (hsize : size < 2 ^ 32) :
    ∀ (fuel k i : Nat) (fin : List Byte) (w : World), i + k = size → k < fuel →
      counterLoop e path buf size fuel i fin w
        = some (convert_cleanup_fout path buf
            (loopTail path k fin (writeCounters path buf (decodeCounters k fin) w))) := by
  intro fuel
  induction fuel with
  | zero => intro k i fin w _ hk; omega
  | succ fuel ih =>
    intro k i fin w hik hk
    cases k with
    | zero =>
      have hi : ¬ i < size := by omega
      simp [counterLoop, hi, decodeCounters, writeCounters, loopTail]
    | succ k =>
      have hi : i < size := by omega
      have hmod : (i + 1) % 2 ^ 32 = i + 1 := Nat.mod_eq_of_lt (by omega)
      rcases fin with _ | ⟨b0, _ | ⟨b1, _ | ⟨b2, _ | ⟨b3, rest⟩⟩⟩⟩
      · simp [counterLoop, hi, fread, decodeCounters, writeCounters, loopTail]
      · simp only [counterLoop, hi, fread, decodeCounters, writeCounters, loopTail, if_true,
          List.take, List.drop, List.length]
        rw [if_pos (by omega)]
      · simp only [counterLoop, hi, fread, decodeCounters, writeCounters, loopTail, if_true,
          List.take, List.drop, List.length]
        rw [if_pos (by omega)]
      · simp only [counterLoop, hi, fread, decodeCounters, writeCounters, loopTail, if_true,
          List.take, List.drop, List.length]
        rw [if_pos (by omega)]
      · have hrec := ih k (i + 1) rest
          ((w.emit (.fread path 4 4)).fprintf buf (fmtU (le32 b0 b1 b2 b3) ++ TERMINATOR))
          (by omega) (by omega)
        simp only [counterLoop, hi, fread, if_true, List.take, List.drop, hmod,
          le32toh_load32, toUnsigned_le32, hrec, decodeCounters, writeCounters]
        rw [loopTail_cons4]

/-! ## Worlds reached by the loop -/

theorem bytesOf_append (a b : String) : bytesOf (a ++ b) = bytesOf a ++ bytesOf b := by
  simp [bytesOf, String.data_append]

theorem FS.rd_set_self (fs : FS) (p : String) (bs : List Byte) : (fs.set p bs).rd p = .ok bs := by
  simp [FS.set]

theorem FS.rd_set_other (fs : FS) (p q : String) (bs : List Byte) (h : q ≠ p) :
    (fs.set p bs).rd q = fs.rd q := by
  simp [FS.set, h]

theorem writeCounters_trace (path buf : String) :
    ∀ (vals : List Nat) (w : World),
      (writeCounters path buf vals w).trace = w.trace ++ counterEvents path buf vals := by
  intro vals
  induction vals with
  | nil => intro w; simp [writeCounters, counterEvents]
  | cons v vs ih =>
    intro w
    simp [writeCounters, counterEvents, ih, World.fprintf, World.emit]

theorem writeCounters_wr (path buf : String) :
    ∀ (vals : List Nat) (w : World), (writeCounters path buf vals w).fs.wr = w.fs.wr := by
  intro vals
  induction vals with
  | nil => intro w; rfl
  | cons v vs ih => intro w; simp [writeCounters, ih, World.fprintf, World.emit, FS.set]

theorem writeCounters_rd_other (path buf : String) (p : String) (hp : p ≠ buf) :
    ∀ (vals : List Nat) (w : World), (writeCounters path buf vals w).fs.rd p = w.fs.rd p := by
  intro vals
  induction vals with
  | nil => intro w; rfl
  | cons v vs ih => intro w; simp [writeCounters, ih, World.fprintf, World.emit, FS.set, hp]

theorem writeCounters_rd_buf (path buf : String) :
    ∀ (vals : List Nat) (w : World) (cur : List Byte), w.fs.rd buf = .ok cur →
      (writeCounters path buf vals w).fs.rd buf = .ok (cur ++ bytesOf (linesText vals)) := by
  intro vals
  induction vals with
  | nil => intro w cur h; simp [writeCounters, linesText, bytesOf, h]
  | cons v vs ih =>
    intro w cur h
    have h1 : ((w.emit (.fread path 4 4)).fprintf buf (fmtU v ++ TERMINATOR)).fs.rd buf
        = .ok (cur ++ bytesOf (fmtU v ++ TERMINATOR)) := by
      simp [World.fprintf, World.emit, FS.set, FS.bytes, h]
    rw [writeCounters, ih _ _ h1, linesText]
    simp only [bytesOf_append, List.append_assoc]

theorem loopTail_trace (path : String) (k : Nat) (fin : List Byte) (w : World) :
    (loopTail path k fin w).trace = w.trace ++ tailEvents path k fin := by
  unfold loopTail tailEvents
  split <;> simp [World.emit]

theorem loopTail_fs (path : String) (k : Nat) (fin : List Byte) (w : World) :
    (loopTail path k fin w).fs = w.fs := by
  unfold loopTail
  split <;> simp [World.emit]

theorem cleanup_fout_trace (path buf : String) (w : World) :
    (convert_cleanup_fout path buf w).trace = w.trace ++ [.fclose buf, .fclose path] := by
  simp [convert_cleanup_fout, convert_cleanup_fin, World.emit]

theorem cleanup_fout_fs (path buf : String) (w : World) :
    (convert_cleanup_fout path buf w).fs = w.fs := by
  simp [convert_cleanup_fout, convert_cleanup_fin, World.emit]

/-! ## The outcomes of `convert` -/

theorem convert_too_long (FM : Nat) (e : Endian) (path : String) (w : World)
    (h : FM < strlen path + strlen POSTFIX) :
    convert FM e path w = some (w.emit (.stderr (tooLongDiag path))) := by
  simp [convert, h]

theorem convert_rd_fail (FM : Nat) (e : Endian) (path : String) (w : World) (reason : String)
    (hpath : strlen path + strlen POSTFIX ≤ FM) (hin : w.fs.rd path = .error reason) :
    convert FM e path w
      = some ((w.emit (.fopen path "rb" false)).emit (.stderr (fopenDiag path reason))) := by
  simp [convert, Nat.not_lt.mpr hpath, fopen_rb, hin]

theorem convert_wr_fail (FM : Nat) (e : Endian) (path : String) (w : World)
    (inp : List Byte) (reason : String)
    (hpath : strlen path + strlen POSTFIX ≤ FM) (hin : w.fs.rd path = .ok inp)
    (hout : w.fs.wr (path ++ ".new.txt") = some reason) :
    convert FM e path w
      = some { fs := w.fs,
               trace := w.trace ++ [.fopen path "rb" true, .fopen (path ++ ".new.txt") "wb" false,
                 .stderr (fopenDiag (path ++ ".new.txt") reason), .fclose path] } := by
  simp [convert, Nat.not_lt.mpr hpath, fopen_rb, hin, fopen_wb, hout, World.emit,
    convert_cleanup_fin]

theorem convert_opened (FM : Nat) (e : Endian) (path : String) (w : World) (inp : List Byte)
    (hpath : strlen path + strlen POSTFIX ≤ FM) (hin : w.fs.rd path = .ok inp)
    (hout : w.fs.wr (path ++ ".new.txt") = none) :
    ∃ w1, convert FM e path w = some w1 ∧
      w1.trace = w.trace ++ (.fopen path "rb" true :: .fopen (path ++ ".new.txt") "wb" true ::
        bodyEvents path (path ++ ".new.txt") inp
          ++ [.fclose (path ++ ".new.txt"), .fclose path]) ∧
      w1.fs.rd (path ++ ".new.txt") = .ok (bytesOf (linesText (counterValues inp))) ∧
      w1.fs.wr = w.fs.wr ∧
      ∀ p, p ≠ path ++ ".new.txt" → w1.fs.rd p = w.fs.rd p := by
  have hp := Nat.not_lt.mpr hpath
  rcases inp with _ | ⟨s0, _ | ⟨s1, _ | ⟨s2, _ | ⟨s3, _ | ⟨g0, _ | ⟨g1, _ | ⟨l0, _ | ⟨l1,
    _ | ⟨l2, _ | ⟨l3, body⟩⟩⟩⟩⟩⟩⟩⟩⟩⟩
  case cons.cons.cons.cons.cons.cons.cons.cons.cons.cons =>
    simp only [convert, hp, if_false, fopen_rb, hin, fopen_wb, World.emit, hout, fread,
      List.take, List.drop, le32toh_load32]
    rw [counterLoop_eq e path (path ++ ".new.txt") (le32 s0 s1 s2 s3) (le32_lt _ _ _ _) (2 ^ 32)
      (le32 s0 s1 s2 s3) 0 body _ (by omega) (le32_lt _ _ _ _)]
    have e4 : ¬ (body.length + 1 + 1 + 1 + 1 + 1 + 1 + 1 + 1 + 1 + 1 < 4) := by omega
    have e6 : ¬ (body.length + 1 + 1 + 1 + 1 + 1 + 1 + 1 + 1 + 1 + 1 < 6) := by omega
    have e10 : ¬ (body.length + 1 + 1 + 1 + 1 + 1 + 1 + 1 + 1 + 1 + 1 < 10) := by omega
    refine ⟨_, rfl, ?_, ?_, ?_, ?_⟩
    · simp [cleanup_fout_trace, loopTail_trace, writeCounters_trace, World.emit, bodyEvents,
        counterValues, le32At, e4, e6, e10]
    · rw [cleanup_fout_fs, loopTail_fs, writeCounters_rd_buf path _ _ _ []]
      · simp [counterValues, le32At, e10]
      · simp [World.emit, FS.set]
    · rw [cleanup_fout_fs, loopTail_fs, writeCounters_wr]
      simp [World.emit, FS.set]
    · intro p hne
      rw [cleanup_fout_fs, loopTail_fs, writeCounters_rd_other path _ p hne]
      simp [World.emit, FS.set, hne]
  all_goals
    simp [convert, hp, fopen_rb, hin, fopen_wb, hout, fread, World.emit, convert_cleanup_fout,
      convert_cleanup_fin, bodyEvents, counterValues, linesText, bytesOf, FS.set]
    intro p h1 h2
    exact absurd h2 h1

/-! ## Decoding the counter array -/

theorem le32At_cons4 (b0 b1 b2 b3 : Byte) (rest : List Byte) (j : Nat) :
    le32At (b0 :: b1 :: b2 :: b3 :: rest) (j + 4) = le32At rest j := by
  simp [le32At, List.getD_cons_succ]

theorem decodeCounters_eq_map_min :
    ∀ (k : Nat) (l : List Byte),
      decodeCounters k l = (List.range (min k (l.length / 4))).map (fun i => le32At l (4 * i)) := by
  intro k
  induction k with
  | zero => intro l; simp [decodeCounters]
  | succ k ih =>
    intro l
    rcases l with _ | ⟨b0, _ | ⟨b1, _ | ⟨b2, _ | ⟨b3, rest⟩⟩⟩⟩
    · simp [decodeCounters]
    · simp [decodeCounters]
    · simp [decodeCounters]
    · simp [decodeCounters]
    · have hm : min (k + 1) ((b0 :: b1 :: b2 :: b3 :: rest).length / 4)
          = min k (rest.length / 4) + 1 := by
        simp only [List.length_cons]
        omega
      rw [decodeCounters, ih rest, hm, List.range_succ_eq_map]
      simp only [List.map_cons, List.map_map]
      congr 1

theorem decodeCounters_eq_map (k : Nat) (l : List Byte) (h : 4 * k ≤ l.length) :
    decodeCounters k l = (List.range k).map (fun i => le32At l (4 * i)) := by
  rw [decodeCounters_eq_map_min, Nat.min_eq_left (by omega)]

theorem le32At_drop (l : List Byte) (n j : Nat) : le32At (l.drop n) j = le32At l (n + j) := by
  simp [le32At, List.getD_eq_getElem?_getD, List.getElem?_drop, Nat.add_assoc]

theorem counterValues_truncated (inp : List Byte) (h10 : 10 ≤ inp.length)
    (h : inp.length < 10 + 4 * le32At inp 0) :
    counterValues inp
      = (List.range ((inp.length - 10) / 4)).map (fun i => le32At inp (10 + 4 * i)) := by
  have h10 : ¬ inp.length < 10 := by omega
  rw [counterValues, if_neg h10, decodeCounters_eq_map_min, Nat.min_eq_right (by simp; omega)]
  simp [le32At_drop]

theorem counterValues_wellformed (inp : List Byte) (h : 10 + 4 * le32At inp 0 ≤ inp.length) :
    counterValues inp = (List.range (le32At inp 0)).map (fun i => le32At inp (10 + 4 * i)) := by
  have h10 : ¬ inp.length < 10 := by omega
  rw [counterValues, if_neg h10, decodeCounters_eq_map _ _ (by simp; omega)]
  simp [le32At_drop]

/-! ## Console and diagnostics of a trace -/

theorem diagnostics_append (a b : List Event) :
    diagnostics (a ++ b) = diagnostics a ++ diagnostics b := by
  induction a with
  | nil => rfl
  | cons ev a ih => cases ev <;> simp [diagnostics, ih]

theorem console_append (a b : List Event) : console (a ++ b) = console a ++ console b := by
  induction a with
  | nil => rfl
  | cons ev a ih => cases ev <;> simp [console, ih]

theorem diagnostics_counterEvents (path buf : String) (vals : List Nat) :
    diagnostics (counterEvents path buf vals) = [] := by
  induction vals with
  | nil => rfl
  | cons v vs ih => simp [counterEvents, diagnostics, ih]

theorem console_counterEvents (path buf : String) (vals : List Nat) :
    console (counterEvents path buf vals) = [] := by
  induction vals with
  | nil => rfl
  | cons v vs ih => simp [counterEvents, console, ih]

theorem console_tailEvents (path : String) (k : Nat) (fin : List Byte) :
    console (tailEvents path k fin) = [] := by
  unfold tailEvents
  split <;> simp [console]

theorem linesText_bytes (vals : List Nat) :
    bytesOf (linesText vals) = (vals.map (fun v => bytesOf (Nat.repr v) ++ [13, 10])).flatten := by
  induction vals with
  | nil => rfl
  | cons v vs ih =>
    rw [linesText, bytesOf_append, bytesOf_append, ih]
    simp only [List.map_cons, List.flatten_cons, fmtU]
    rfl

theorem diagnostics_bodyEvents (path buf : String) (inp : List Byte) :
    diagnostics (bodyEvents path buf inp)
      = if inp.length < 4 then [freadDiag path "error reading size"]
        else if inp.length < 6 then [freadDiag path "error reading gap bytes"]
        else if inp.length < 10 then [freadDiag path "error reading live time"]
        else if inp.length < 10 + 4 * le32At inp 0 then
          [freadDiag path "error reading counter value"]
        else [] := by
  unfold bodyEvents
  split_ifs with h4 h6 h10 hs <;>
    simp [diagnostics, diagnostics_append, diagnostics_counterEvents, tailEvents] <;>
    split_ifs with ht <;> first | rfl | omega

theorem console_bodyEvents (path buf : String) (inp : List Byte) :
    console (bodyEvents path buf inp)
      = if inp.length < 10 then []
        else [progressLine path (le32At inp 0) (le32At inp 6)] := by
  unfold bodyEvents
  split_ifs with h4 h6 h10 <;>
    first
    | omega
    | simp [console, console_append, console_counterEvents, console_tailEvents]

theorem mainLoop_step (FM : Nat) (e : Endian) (argv : List String) (fuel i : Nat)
    (w w1 : World) (h : i < argv.length)
    (hc : convert FM e (argv.get ⟨i, h⟩) w = some w1) :
    mainLoop FM e argv (fuel + 1) i w = mainLoop FM e argv fuel (i + 1) w1 := by
  simp only [mainLoop, h, dif_pos, hc]

/-! ## Framing: the events of `convert` do not depend on the trace so far -/

theorem FS.ext_rd_wr (a b : FS) (h1 : ∀ p, a.rd p = b.rd p) (h2 : a.wr = b.wr) : a = b := by
  cases a with
  | mk ar aw =>
    cases b with
    | mk br bw =>
      have : ar = br := funext h1
      simp only [FS.mk.injEq]
      exact ⟨this, h2⟩

theorem convert_frame (FM : Nat) (e : Endian) (path : String) (w : World) :
    ∃ w1, convert FM e path { fs := w.fs, trace := [] } = some w1 ∧
      convert FM e path w = some { fs := w1.fs, trace := w.trace ++ w1.trace } := by
  by_cases hlong : FM < strlen path + strlen POSTFIX
  · rw [convert_too_long FM e path _ hlong, convert_too_long FM e path _ hlong]
    exact ⟨_, rfl, rfl⟩
  · have hpath : strlen path + strlen POSTFIX ≤ FM := Nat.le_of_not_lt hlong
    cases hin : w.fs.rd path with
    | error reason =>
      rw [convert_rd_fail FM e path { fs := w.fs, trace := [] } reason hpath hin,
        convert_rd_fail FM e path w reason hpath hin]
      exact ⟨_, rfl, by simp [World.emit]⟩
    | ok inp =>
      cases hout : w.fs.wr (path ++ ".new.txt") with
      | some reason =>
        rw [convert_wr_fail FM e path { fs := w.fs, trace := [] } inp reason hpath hin hout,
          convert_wr_fail FM e path w inp reason hpath hin hout]
        exact ⟨_, rfl, rfl⟩
      | none =>
        obtain ⟨w1, hc1, ht1, hb1, hw1, ho1⟩ :=
          convert_opened FM e path { fs := w.fs, trace := [] } inp hpath hin hout
        obtain ⟨w2, hc2, ht2, hb2, hw2, ho2⟩ := convert_opened FM e path w inp hpath hin hout
        refine ⟨w1, hc1, ?_⟩
        rw [hc2]
        have hfs : w2.fs = w1.fs := by
          apply FS.ext_rd_wr
          · intro p
            by_cases hp : p = path ++ ".new.txt"
            · rw [hp, hb1, hb2]
            · rw [ho1 p hp, ho2 p hp]
          · rw [hw1, hw2]
        have htr : w2.trace = w.trace ++ w1.trace := by
          rw [ht2, ht1]
          rfl
        cases w2 with
        | mk fs2 tr2 =>
          simp only at hfs htr
          rw [hfs, htr]

theorem convert_total (FM : Nat) (e : Endian) (path : String) (w : World) :
    ∃ w1, convert FM e path w = some w1 := by
  obtain ⟨w1, -, h⟩ := convert_frame FM e path w
  exact ⟨_, h⟩

theorem batch_total (FM : Nat) (e : Endian) :
    ∀ (ps : List String) (fs : FS), ∃ evs fs2, batch FM e ps fs = some (evs, fs2) := by
  intro ps
  induction ps with
  | nil => intro fs; exact ⟨[], fs, rfl⟩
  | cons p ps ih =>
    intro fs
    obtain ⟨w1, h1⟩ := convert_total FM e p { fs := fs, trace := [] }
    obtain ⟨evs, fs2, h2⟩ := ih w1.fs
    exact ⟨w1.trace ++ evs, fs2, by simp [batch, h1, h2]⟩

theorem mainLoop_eq_batch (FM : Nat) (e : Endian) (argv : List String) :
    ∀ (fuel i : Nat) (w : World) (evs : List Event) (fs2 : FS),
      argv.length - i < fuel → batch FM e (argv.drop i) w.fs = some (evs, fs2) →
      mainLoop FM e argv fuel i w = some { fs := fs2, trace := w.trace ++ evs } := by
  intro fuel
  induction fuel with
  | zero => intro i w evs fs2 h _; omega
  | succ fuel ih =>
    intro i w evs fs2 hfuel hb
    by_cases hi : i < argv.length
    · obtain ⟨w1, hc1, hc⟩ := convert_frame FM e (argv.get ⟨i, hi⟩) w
      rw [mainLoop_step FM e argv fuel i w _ hi hc]
      have hdrop : argv.drop i = argv.get ⟨i, hi⟩ :: argv.drop (i + 1) := by
        exact List.drop_eq_getElem_cons hi
      rw [hdrop] at hb
      simp only [batch, hc1] at hb
      obtain ⟨evs2, fs3, hb2⟩ := batch_total FM e (argv.drop (i + 1)) w1.fs
      rw [hb2] at hb
      simp only [Option.some.injEq, Prod.mk.injEq] at hb
      have := ih (i + 1) { fs := w1.fs, trace := w.trace ++ w1.trace } evs2 fs3
        (by omega) hb2
      rw [this, ← hb.1, ← hb.2, List.append_assoc]
    · have hdrop : argv.drop i = [] := List.drop_eq_nil_of_le (by omega)
      rw [hdrop] at hb
      simp only [batch, Option.some.injEq, Prod.mk.injEq] at hb
      simp only [mainLoop, hi, dif_neg, not_false_eq_true, ← hb.1, ← hb.2, List.append_nil]

/-! ## Opens and closes of a trace -/

theorem opened_append (a b : List Event) : opened (a ++ b) = opened a ++ opened b := by
  induction a with
  | nil => rfl
  | cons ev a ih =>
    cases ev with
    | fopen p m ok => cases ok <;> simp [opened, ih]
    | _ => simp [opened, ih]

theorem closed_append (a b : List Event) : closed (a ++ b) = closed a ++ closed b := by
  induction a with
  | nil => rfl
  | cons ev a ih => cases ev <;> simp [closed, ih]

theorem uses_counterEvents (path buf : String) (vals : List Nat) :
    ∀ ev ∈ counterEvents path buf vals,
      ev.isUse = true ∧ (ev.stream = none ∨ ev.stream = some path ∨ ev.stream = some buf) := by
  induction vals with
  | nil => intro ev h; simp [counterEvents] at h
  | cons v vs ih =>
    intro ev h
    simp only [counterEvents, List.mem_cons] at h
    rcases h with h | h | h
    · subst h; simp [Event.isUse, Event.stream]
    · subst h; simp [Event.isUse, Event.stream]
    · exact ih ev h

theorem uses_bodyEvents (path buf : String) (inp : List Byte) :
    ∀ ev ∈ bodyEvents path buf inp,
      ev.isUse = true ∧ (ev.stream = none ∨ ev.stream = some path ∨ ev.stream = some buf) := by
  intro ev h
  unfold bodyEvents at h
  split_ifs at h
  · simp only [List.mem_cons, List.mem_singleton, List.not_mem_nil, or_false] at h
    rcases h with h | h <;> subst h <;> simp [Event.isUse, Event.stream]
  · simp only [List.mem_cons, List.mem_singleton, List.not_mem_nil, or_false] at h
    rcases h with h | h | h <;> subst h <;> simp [Event.isUse, Event.stream]
  · simp only [List.mem_cons, List.mem_singleton, List.not_mem_nil, or_false] at h
    rcases h with h | h | h | h <;> subst h <;> simp [Event.isUse, Event.stream]
  · simp only [List.mem_append, List.mem_cons, List.mem_singleton, List.not_mem_nil,
      or_false] at h
    rcases h with ((h | h | h | h) | h) | h
    · subst h; simp [Event.isUse, Event.stream]
    · subst h; simp [Event.isUse, Event.stream]
    · subst h; simp [Event.isUse, Event.stream]
    · subst h; simp [Event.isUse, Event.stream]
    · exact uses_counterEvents path buf _ ev h
    · unfold tailEvents at h
      split_ifs at h
      · simp only [List.mem_cons, List.mem_singleton, List.not_mem_nil, or_false] at h
        rcases h with h | h <;> subst h <;> simp [Event.isUse, Event.stream]
      · simp at h

theorem opened_of_uses (evs : List Event) (h : ∀ ev ∈ evs, ev.isUse = true) :
    opened evs = [] := by
  induction evs with
  | nil => rfl
  | cons ev evs ih =>
    have h1 := h ev (List.mem_cons_self _ _)
    have h2 := ih (fun x hx => h x (List.mem_cons_of_mem _ hx))
    cases ev <;> simp_all [opened, Event.isUse]

theorem closed_of_uses (evs : List Event) (h : ∀ ev ∈ evs, ev.isUse = true) :
    closed evs = [] := by
  induction evs with
  | nil => rfl
  | cons ev evs ih =>
    have h1 := h ev (List.mem_cons_self _ _)
    have h2 := ih (fun x hx => h x (List.mem_cons_of_mem _ hx))
    cases ev <;> simp_all [closed, Event.isUse]

theorem balanced_of_uses (path buf : String) (rest : List Event) :
    ∀ (evs : List Event),
      (∀ ev ∈ evs, ev.isUse = true ∧
        (ev.stream = none ∨ ev.stream = some path ∨ ev.stream = some buf)) →
      balanced [buf, path] (evs ++ rest) = balanced [buf, path] rest := by
  intro evs
  induction evs with
  | nil => intro _; rfl
  | cons ev evs ih =>
    intro h
    have h1 := h ev (List.mem_cons_self _ _)
    have h2 := ih (fun x hx => h x (List.mem_cons_of_mem _ hx))
    cases ev with
    | fopen p m ok => simp [Event.isUse] at h1
    | fclose p => simp [Event.isUse] at h1
    | fread p a b =>
      have hp : p = path ∨ p = buf := by simpa [Event.stream] using h1.2
      rcases hp with hp | hp <;> simp [balanced, hp, h2]
    | fprintf p t =>
      have hp : p = path ∨ p = buf := by simpa [Event.stream] using h1.2
      rcases hp with hp | hp <;> simp [balanced, hp, h2]
    | stdout t => simp [balanced, h2]
    | stderr t => simp [balanced, h2]

theorem path_ne_buf (path : String) : path ≠ path ++ ".new.txt" := by
  intro h
  have := congrArg String.length h
  simp only [String.length_append] at this
  have h8 : ".new.txt".length = 8 := by decide
  omega

/-! ## The claims -/

/-- C1: on a well-formed input (at least `10 + 4 * N` bytes, `N` the
little-endian value of the first four bytes), with both files opening,
`convert` returns and leaves an output file of exactly `N` lines, line `i`
being the decimal text of the little-endian 32-bit value (below `2 ^ 32`) at
offset `10 + 4 * i` followed by CR LF; no diagnostic is written; for `N = 0`
the output file exists and is empty. -/
theorem convert_wellformed (FM : Nat) (e : Endian) (path : String) (w : World)
    (inp : List Byte)
    (hpath : strlen path + strlen POSTFIX ≤ FM)
    (hin : w.fs.rd path = .ok inp)
    (hout : w.fs.wr (path ++ ".new.txt") = none)
    (hlen : 10 + 4 * le32At inp 0 ≤ inp.length) :
    ∃ w1, convert FM e path w = some w1 ∧
      w1.fs.rd (path ++ ".new.txt")
        = .ok (((List.range (le32At inp 0)).map
            (fun i => bytesOf (Nat.repr (le32At inp (10 + 4 * i))) ++ [13, 10])).flatten) ∧
      ((List.range (le32At inp 0)).map
          (fun i => bytesOf (Nat.repr (le32At inp (10 + 4 * i))) ++ [13, 10])).length
        = le32At inp 0 ∧
      (∀ i, le32At inp (10 + 4 * i) ≤ 4294967295) ∧
      diagnostics w1.trace = diagnostics w.trace ∧
      (le32At inp 0 = 0 → w1.fs.rd (path ++ ".new.txt") = .ok []) := by
  obtain ⟨w1, hc, htr, hrd, -, -⟩ := convert_opened FM e path w inp hpath hin hout
  have hvals := counterValues_wellformed inp hlen
  have hfile : w1.fs.rd (path ++ ".new.txt")
      = .ok (((List.range (le32At inp 0)).map
          (fun i => bytesOf (Nat.repr (le32At inp (10 + 4 * i))) ++ [13, 10])).flatten) := by
    rw [hrd, linesText_bytes, hvals, List.map_map]
    rfl
  refine ⟨w1, hc, hfile, by simp, ?_, ?_, ?_⟩
  · intro i
    have := le32_lt (inp.getD (10 + 4 * i) 0) (inp.getD (10 + 4 * i + 1) 0)
      (inp.getD (10 + 4 * i + 2) 0) (inp.getD (10 + 4 * i + 3) 0)
    unfold le32At
    omega
  · have h4 : ¬ inp.length < 4 := by omega
    have h6 : ¬ inp.length < 6 := by omega
    have h10 : ¬ inp.length < 10 := by omega
    have ht : ¬ (inp.length - 10 < 4 * le32At inp 0) := by omega
    rw [htr]
    simp [diagnostics_append, diagnostics, bodyEvents, h4, h6, h10, diagnostics_counterEvents,
      tailEvents, ht]
  · intro h0
    rw [hfile, h0]
    rfl

/-- Witness of C1: the example of the specification, input
`02 00 00 00 FF FF 10 00 00 00 2A 00 00 00 64 00 00 00`, gives the output
bytes of the text "42\r\n100\r\n". -/
theorem convert_wellformed_witness :
    ∃ w1, convert 4096 .little "a.dat" (World.init (FS.single "a.dat" exampleInput)) = some w1 ∧
      w1.fs.rd "a.dat.new.txt" = .ok (bytesOf "42\r\n100\r\n") ∧
      diagnostics w1.trace = [] := by
  obtain ⟨w1, h1, h2, -, -, h3, -⟩ :=
    convert_wellformed 4096 .little "a.dat" (World.init (FS.single "a.dat" exampleInput))
      exampleInput (by decide) rfl rfl (by decide)
  exact ⟨w1, h1, h2, h3⟩

/-- C2: for every four bytes `b0 b1 b2 b3` stored in that order in a
`uint32_t` object (on either host byte order), `le32toh` of the object's
value is `b0 + 2^8 * b1 + 2^16 * b2 + 2^24 * b3`, for every byte value, and
the result is below `2^32`. -/
theorem le32toh_little_endian (e : Endian) (b0 b1 b2 b3 : Byte) :
    le32toh e (load32 e b0 b1 b2 b3)
      = b0.val + 2 ^ 8 * b1.val + 2 ^ 16 * b2.val + 2 ^ 24 * b3.val ∧
    le32toh e (load32 e b0 b1 b2 b3) < 2 ^ 32 := by
  rw [le32toh_load32]
  exact ⟨rfl, le32_lt b0 b1 b2 b3⟩

theorem counterLoop_endian (e1 e2 : Endian) (path buf : String) (size : Nat) :
    ∀ (fuel i : Nat) (fin : List Byte) (w : World),
      counterLoop e1 path buf size fuel i fin w = counterLoop e2 path buf size fuel i fin w := by
  intro fuel
  induction fuel with
  | zero => intro i fin w; rfl
  | succ fuel ih =>
    intro i fin w
    simp only [counterLoop, le32toh_load32, ih]

/-- C3: for every input (every path and every world), `convert` on a
little-endian host and `convert` on a big-endian host return the same world:
the same files, the same console lines and the same diagnostics. -/
theorem convert_endian_independent (FM : Nat) (path : String) (w : World) :
    convert FM .little path w = convert FM .big path w := by
  simp only [convert, le32toh_load32, counterLoop_endian .little .big]

/-- C4, counterexample: the four-byte input `00 00 00 00` has fewer bytes than
`10 + 4 * size` (its channel count is 0), yet the diagnostic is the one of
the gap bytes, not the one of the counter field. -/
theorem truncated_header_counterexample :
    ([0, 0, 0, 0] : List Byte).length < 10 + 4 * le32At [0, 0, 0, 0] 0 ∧
    ∃ w1, convert 4096 .little "a.dat" (World.init (FS.single "a.dat" [0, 0, 0, 0])) = some w1 ∧
      diagnostics w1.trace = ["fread: a.dat: error reading gap bytes\n"] ∧
      freadDiag "a.dat" "error reading counter value" ∉ diagnostics w1.trace ∧
      w1.fs.rd "a.dat.new.txt" = .ok [] ∧ le32At [0, 0, 0, 0] 0 = 0 := by
  refine ⟨by decide, _, rfl, by decide, by decide, rfl, by decide⟩

/-- C4, amended: for every input of at least 10 bytes and fewer than
`10 + 4 * size` bytes (both files opening), `convert` returns, writes exactly
the diagnostic "error reading counter value", leaves an output file holding
the lines of the first `(L - 10) / 4` counters, fewer than `size`, and the
loop of `main` goes on with the next argument. -/
theorem convert_truncated_counters (FM : Nat) (e : Endian) (path : String) (w : World)
    (inp : List Byte)
    (hpath : strlen path + strlen POSTFIX ≤ FM)
    (hin : w.fs.rd path = .ok inp)
    (hout : w.fs.wr (path ++ ".new.txt") = none)
    (h10 : 10 ≤ inp.length)
    (hshort : inp.length < 10 + 4 * le32At inp 0) :
    ∃ w1, convert FM e path w = some w1 ∧
      diagnostics w1.trace
        = diagnostics w.trace ++ [freadDiag path "error reading counter value"] ∧
      w1.fs.rd (path ++ ".new.txt")
        = .ok (((List.range ((inp.length - 10) / 4)).map
            (fun i => bytesOf (Nat.repr (le32At inp (10 + 4 * i))) ++ [13, 10])).flatten) ∧
      (inp.length - 10) / 4 < le32At inp 0 ∧
      ∀ (argv : List String) (fuel i : Nat) (h : i < argv.length), argv.get ⟨i, h⟩ = path →
        mainLoop FM e argv (fuel + 1) i w = mainLoop FM e argv fuel (i + 1) w1 := by
  obtain ⟨w1, hc, htr, hrd, -, -⟩ := convert_opened FM e path w inp hpath hin hout
  refine ⟨w1, hc, ?_, ?_, by omega, ?_⟩
  · have h4 : ¬ inp.length < 4 := by omega
    have h6 : ¬ inp.length < 6 := by omega
    have h10 : ¬ inp.length < 10 := by omega
    rw [htr]
    simp [diagnostics_append, diagnostics, diagnostics_bodyEvents, h4, h6, h10, hshort]
  · rw [hrd, linesText_bytes, counterValues_truncated inp h10 hshort, List.map_map]
    rfl
  · intro argv fuel i h hp
    exact mainLoop_step FM e argv fuel i w w1 h (by rw [hp]; exact hc)

/-- Witness of C4 (amended): a count of 2 with one counter and two more bytes. -/
theorem convert_truncated_counters_witness :
    ∃ w1, convert 4096 .big "a.dat" (World.init (FS.single "a.dat"
        [2, 0, 0, 0, 0xFF, 0xFF, 0x10, 0, 0, 0, 0x2A, 0, 0, 0, 0x64, 0])) = some w1 ∧
      diagnostics w1.trace = ["fread: a.dat: error reading counter value\n"] ∧
      w1.fs.rd "a.dat.new.txt" = .ok (bytesOf "42\r\n") := by
  obtain ⟨w1, h1, h2, h3, -, -⟩ :=
    convert_truncated_counters 4096 .big "a.dat" (World.init (FS.single "a.dat"
        [2, 0, 0, 0, 0xFF, 0xFF, 0x10, 0, 0, 0, 0x2A, 0, 0, 0, 0x64, 0]))
      [2, 0, 0, 0, 0xFF, 0xFF, 0x10, 0, 0, 0, 0x2A, 0, 0, 0, 0x64, 0]
      (by decide) rfl rfl (by decide) (by decide)
  exact ⟨w1, h1, h2, h3⟩

/-- C5: for every input of length `L` with both files opening, `convert`
returns and writes at most one diagnostic, the one of the first field that
could not be read in full: size for `L < 4`, gap bytes for `4 ≤ L < 6`, live
time for `6 ≤ L < 10`, counter value for `10 ≤ L < 10 + 4 * size`, none for
`L ≥ 10 + 4 * size`; for `L < 10` the output file is left empty and nothing is
printed on standard output. -/
theorem convert_diagnostic_by_length (FM : Nat) (e : Endian) (path : String) (w : World)
    (inp : List Byte)
    (hpath : strlen path + strlen POSTFIX ≤ FM)
    (hin : w.fs.rd path = .ok inp)
    (hout : w.fs.wr (path ++ ".new.txt") = none) :
    ∃ w1, convert FM e path w = some w1 ∧
      diagnostics w1.trace = diagnostics w.trace ++
        (if inp.length < 4 then ["fread: " ++ path ++ ": " ++ "error reading size" ++ "\n"]
         else if inp.length < 6 then
           ["fread: " ++ path ++ ": " ++ "error reading gap bytes" ++ "\n"]
         else if inp.length < 10 then
           ["fread: " ++ path ++ ": " ++ "error reading live time" ++ "\n"]
         else if inp.length < 10 + 4 * le32At inp 0 then
           ["fread: " ++ path ++ ": " ++ "error reading counter value" ++ "\n"]
         else []) ∧
      (diagnostics w1.trace).length ≤ (diagnostics w.trace).length + 1 ∧
      (inp.length < 10 →
        w1.fs.rd (path ++ ".new.txt") = .ok [] ∧ console w1.trace = console w.trace) := by
  obtain ⟨w1, hc, htr, hrd, -, -⟩ := convert_opened FM e path w inp hpath hin hout
  have hd : diagnostics w1.trace = diagnostics w.trace ++
      (if inp.length < 4 then ["fread: " ++ path ++ ": " ++ "error reading size" ++ "\n"]
         else if inp.length < 6 then
           ["fread: " ++ path ++ ": " ++ "error reading gap bytes" ++ "\n"]
         else if inp.length < 10 then
           ["fread: " ++ path ++ ": " ++ "error reading live time" ++ "\n"]
         else if inp.length < 10 + 4 * le32At inp 0 then
           ["fread: " ++ path ++ ": " ++ "error reading counter value" ++ "\n"]
         else []) := by
    rw [htr]
    simp only [diagnostics_append, diagnostics, List.cons_append, diagnostics_bodyEvents,
      List.append_nil, freadDiag]
  refine ⟨w1, hc, hd, ?_, ?_⟩
  · rw [hd]
    split_ifs <;> simp
  · intro hlt
    constructor
    · rw [hrd, counterValues, if_pos hlt]
      rfl
    · rw [htr]
      simp [console_append, console, console_bodyEvents, hlt]

/-- Witness of C5: a seven-byte input stops at the live time. -/
theorem convert_diagnostic_by_length_witness :
    ∃ w1, convert 4096 .little "a.dat"
        (World.init (FS.single "a.dat" [2, 0, 0, 0, 0xFF, 0xFF, 0x10])) = some w1 ∧
      diagnostics w1.trace = ["fread: a.dat: error reading live time\n"] ∧
      w1.fs.rd "a.dat.new.txt" = .ok [] ∧ console w1.trace = [] := by
  obtain ⟨w1, h1, h2, -, h3⟩ :=
    convert_diagnostic_by_length 4096 .little "a.dat"
      (World.init (FS.single "a.dat" [2, 0, 0, 0, 0xFF, 0xFF, 0x10]))
      [2, 0, 0, 0, 0xFF, 0xFF, 0x10] (by decide) rfl rfl
  exact ⟨w1, h1, h2, (h3 (by decide)).1, (h3 (by decide)).2⟩

/-- C6: for every input of at least 10 bytes (both files opening), `convert`
prints exactly one line on standard output, made of the input path, the
decimal channel count (the little-endian 32-bit value at offset 0) and the
decimal live time (the whole little-endian 32-bit value at offset 6); in the
trace the line comes right after the reads of size, gap and live time, before
every read of a counter, whether or not the counter array is complete; for an
input shorter than 10 bytes nothing is printed on standard output. -/
theorem convert_progress_line (FM : Nat) (e : Endian) (path : String) (w : World)
    (inp : List Byte)
    (hpath : strlen path + strlen POSTFIX ≤ FM)
    (hin : w.fs.rd path = .ok inp)
    (hout : w.fs.wr (path ++ ".new.txt") = none) :
    ∃ w1, convert FM e path w = some w1 ∧
      (10 ≤ inp.length →
        ∃ line rest,
          line = "converting: " ++ (path ++ String.mk (List.replicate (16 - strlen path) ' '))
            ++ "\t"
            ++ (String.mk (List.replicate (4 - (Nat.repr (le32At inp 0)).length) ' ')
                ++ Nat.repr (le32At inp 0))
            ++ " channels\t"
            ++ (String.mk (List.replicate (4 - (Nat.repr (le32At inp 6)).length) ' ')
                ++ Nat.repr (le32At inp 6))
            ++ " live seconds\n" ∧
          w1.trace = w.trace ++ [.fopen path "rb" true, .fopen (path ++ ".new.txt") "wb" true,
            .fread path 4 4, .fread path 2 2, .fread path 4 4, .stdout line] ++ rest ∧
          console rest = [] ∧
          console w1.trace = console w.trace ++ [line]) ∧
      (inp.length < 10 → console w1.trace = console w.trace) := by
  obtain ⟨w1, hc, htr, -, -, -⟩ := convert_opened FM e path w inp hpath hin hout
  refine ⟨w1, hc, ?_, ?_⟩
  · intro h10
    have h4 : ¬ inp.length < 4 := by omega
    have h6 : ¬ inp.length < 6 := by omega
    have h10 : ¬ inp.length < 10 := by omega
    have hs : toUnsigned (le32At inp 0) = le32At inp 0 := toUnsigned_le32 _ _ _ _
    have hl : toUnsigned (le32At inp 6) = le32At inp 6 := toUnsigned_le32 _ _ _ _
    refine ⟨progressLine path (le32At inp 0) (le32At inp 6),
      counterEvents path (path ++ ".new.txt") (counterValues inp)
        ++ tailEvents path (le32At inp 0) (inp.drop 10)
        ++ [.fclose (path ++ ".new.txt"), .fclose path], ?_, ?_, ?_, ?_⟩
    · simp only [progressLine, fmtS16, fmtU4, fmtU, hs, hl]
    · rw [htr]
      simp [bodyEvents, h4, h6, h10]
    · simp [console_append, console_counterEvents, console_tailEvents, console]
    · rw [htr]
      simp [console_append, console, console_bodyEvents, h10]
  · intro hlt
    rw [htr]
    simp [console_append, console, console_bodyEvents, hlt]

/-- Witness of C6: the example input, cut after its first counter. -/
theorem convert_progress_line_witness :
    ∃ w1, convert 4096 .little "a.dat" (World.init (FS.single "a.dat"
        [2, 0, 0, 0, 0xFF, 0xFF, 0x10, 0, 1, 0, 0x2A, 0, 0, 0])) = some w1 ∧
      console w1.trace = ["converting: a.dat           \t   2 channels\t65552 live seconds\n"] := by
  obtain ⟨w1, h1, h2, -⟩ :=
    convert_progress_line 4096 .little "a.dat" (World.init (FS.single "a.dat"
        [2, 0, 0, 0, 0xFF, 0xFF, 0x10, 0, 1, 0, 0x2A, 0, 0, 0]))
      [2, 0, 0, 0, 0xFF, 0xFF, 0x10, 0, 1, 0, 0x2A, 0, 0, 0] (by decide) rfl rfl
  obtain ⟨line, rest, hline, -, -, hcon⟩ := h2 (by decide)
  refine ⟨w1, h1, ?_⟩
  rw [hcon, hline]
  decide

/-- C7: with no path argument `main` writes the usage line to standard error,
touches no file, makes no other call and returns 1; with one path argument or
more it returns 0, whatever the conversions did. -/
theorem main_exit_status (FM : Nat) (e : Endian) (prog : String) (w : World) :
    main FM e [prog] w
      = some (1, { fs := w.fs,
                   trace := w.trace ++ [.stderr ("usage: " ++ prog ++ " <datfiles>\n")] }) ∧
    ∀ (p : String) (ps : List String), ∃ w1, main FM e (prog :: p :: ps) w = some (0, w1) := by
  constructor
  · simp [main, World.emit]
  · intro p ps
    obtain ⟨evs, fs2, hb⟩ := batch_total FM e (p :: ps) w.fs
    have h := mainLoop_eq_batch FM e (prog :: p :: ps) ((prog :: p :: ps).length + 1) 1 w evs fs2
      (by simp) hb
    have hne : ¬ ((prog :: p :: ps).length = 1) := by simp
    exact ⟨_, by unfold main; rw [if_neg hne, h]⟩

/-- C8, counterexample: with the empty list of paths the batch writes a
diagnostic (the usage line) although no conversion has produced any. -/
theorem batch_empty_counterexample :
    ∃ evs fs1 r w1,
      batch 4096 .little [] (FS.single "a.dat" exampleInput) = some (evs, fs1) ∧
      main 4096 .little ["prog"] (World.init (FS.single "a.dat" exampleInput)) = some (r, w1) ∧
      diagnostics evs = [] ∧
      diagnostics w1.trace = ["usage: prog <datfiles>\n"] :=
  ⟨_, _, _, _, rfl, rfl, rfl, by decide⟩

/-- C8, amended: for every non-empty list of paths `p :: ps`, `main` returns
0 and leaves the world in which the trace is extended by the events of
`convert` on `p`, then by those of the conversions of `ps` in order, each
conversion running once on the file system left by the one before, whatever
the outcome of the earlier ones; console lines and diagnostics are
concatenated accordingly. -/
theorem main_is_batch (FM : Nat) (e : Endian) (prog p : String) (ps : List String)
    (w : World) :
    ∃ w1 evs fs1,
      convert FM e p { fs := w.fs, trace := [] } = some w1 ∧
      batch FM e ps w1.fs = some (evs, fs1) ∧
      main FM e (prog :: p :: ps) w
        = some (0, { fs := fs1, trace := w.trace ++ (w1.trace ++ evs) }) ∧
      console (w.trace ++ (w1.trace ++ evs))
        = console w.trace ++ (console w1.trace ++ console evs) ∧
      diagnostics (w.trace ++ (w1.trace ++ evs))
        = diagnostics w.trace ++ (diagnostics w1.trace ++ diagnostics evs) := by
  obtain ⟨w1, h1⟩ := convert_total FM e p { fs := w.fs, trace := [] }
  obtain ⟨evs, fs1, h2⟩ := batch_total FM e ps w1.fs
  have hb : batch FM e ((prog :: p :: ps).drop 1) w.fs = some (w1.trace ++ evs, fs1) := by
    simp [batch, h1, h2]
  have h := mainLoop_eq_batch FM e (prog :: p :: ps) ((prog :: p :: ps).length + 1) 1 w _ fs1
    (by simp) hb
  refine ⟨w1, evs, fs1, h1, h2, ?_, ?_, ?_⟩
  · have hne : ¬ ((prog :: p :: ps).length = 1) := by simp
    unfold main
    rw [if_neg hne, h]
  · simp only [console_append]
  · simp only [diagnostics_append]

/-- C9: `convert` rejects a path exactly when
`strlen(path) + strlen(".new.txt") > FILENAME_MAX`: then its only effect is
the line "<path>: path too long" on standard error (no open, no read, no
console line, no file touched). Otherwise its first call opens `path` for
reading, it does not reject, every later open is an open for writing of
`path ++ ".new.txt"`, and that open follows at once when the input opened. -/
theorem convert_path_check (FM : Nat) (e : Endian) (path : String) (w : World) :
    (strlen path + strlen ".new.txt" > FM →
      convert FM e path w
        = some { fs := w.fs,
                 trace := w.trace ++ [.stderr (path ++ ": " ++ "path too long" ++ "\n")] }) ∧
    (strlen path + strlen ".new.txt" ≤ FM →
      ∃ w1 ok rest, convert FM e path w = some w1 ∧
        w1.trace = w.trace ++ .fopen path "rb" ok :: rest ∧
        convert FM e path w
          ≠ some { fs := w.fs,
                   trace := w.trace ++ [.stderr (path ++ ": " ++ "path too long" ++ "\n")] } ∧
        (∀ q m b, Event.fopen q m b ∈ rest → q = path ++ ".new.txt" ∧ m = "wb") ∧
        (ok = true → ∃ b rest2, rest = .fopen (path ++ ".new.txt") "wb" b :: rest2)) := by
  constructor
  · intro h
    rw [convert_too_long FM e path w h]
    rfl
  · intro hpath
    have key : ∃ w1 ok rest, convert FM e path w = some w1 ∧
        w1.trace = w.trace ++ .fopen path "rb" ok :: rest ∧
        (∀ q m b, Event.fopen q m b ∈ rest → q = path ++ ".new.txt" ∧ m = "wb") ∧
        (ok = true → ∃ b rest2, rest = .fopen (path ++ ".new.txt") "wb" b :: rest2) := by
      cases hin : w.fs.rd path with
      | error reason =>
        refine ⟨_, false, [.stderr (fopenDiag path reason)],
          convert_rd_fail FM e path w reason hpath hin, by simp [World.emit], ?_, by simp⟩
        intro q m b hmem
        simp at hmem
      | ok inp =>
        cases hout : w.fs.wr (path ++ ".new.txt") with
        | some reason =>
          refine ⟨_, true, _, convert_wr_fail FM e path w inp reason hpath hin hout, rfl, ?_,
            fun _ => ⟨_, _, rfl⟩⟩
          intro q m b hmem
          simp at hmem
          exact ⟨hmem.1, hmem.2.1⟩
        | none =>
          obtain ⟨w1, hc, htr, -, -, -⟩ := convert_opened FM e path w inp hpath hin hout
          refine ⟨w1, true, .fopen (path ++ ".new.txt") "wb" true ::
            (bodyEvents path (path ++ ".new.txt") inp
              ++ [.fclose (path ++ ".new.txt"), .fclose path]), hc, by rw [htr]; rfl, ?_,
            fun _ => ⟨_, _, rfl⟩⟩
          intro q m b hmem
          simp only [List.mem_cons, List.mem_append, List.not_mem_nil, or_false] at hmem
          rcases hmem with h | h | h
          · simp at h
            exact ⟨h.1, h.2.1⟩
          · have := (uses_bodyEvents path _ inp _ h).1
            simp [Event.isUse] at this
          · simp at h
    obtain ⟨w1, ok, rest, hc, htr, hmem, hnext⟩ := key
    refine ⟨w1, ok, rest, hc, htr, ?_, hmem, hnext⟩
    rw [hc]
    intro heq
    have ht := congrArg World.trace (Option.some.inj heq)
    rw [htr] at ht
    simp at ht

/-- Witness of C9: a limit of 10 bytes rejects "abc" (3 + 8 bytes) and lets
"a" (1 + 8 bytes) through to the open of "a" and, as "a" exists, of
"a.new.txt". -/
theorem convert_path_check_witness :
    convert 10 .little "abc" (World.init (FS.single "a" []))
      = some { fs := FS.single "a" [], trace := [.stderr "abc: path too long\n"] } ∧
    ∃ w1 ok rest, convert 10 .little "a" (World.init (FS.single "a" [])) = some w1 ∧
      w1.trace = .fopen "a" "rb" ok :: rest := by
  refine ⟨(convert_path_check 10 .little "abc" (World.init (FS.single "a" []))).1 (by decide),
    ?_⟩
  obtain ⟨w1, ok, rest, hc, htr, -, -, -⟩ :=
    (convert_path_check 10 .little "a" (World.init (FS.single "a" []))).2 (by decide)
  exact ⟨w1, ok, rest, hc, htr⟩

/-- C10: on every execution path of `convert`, the trace of its calls obeys
the stream discipline (`balanced`: every read and write goes to an open
stream, a close closes the stream opened latest, none is left open on
return), the streams closed are exactly the streams opened, each once, in the
opposite order; they are none (path too long, input not opened), the input
alone (output not opened), or the input then the output, closed output first. -/
theorem convert_handles (FM : Nat) (e : Endian) (path : String) (w : World) :
    ∃ w1 evs, convert FM e path w = some w1 ∧ w1.trace = w.trace ++ evs ∧
      balanced [] evs = true ∧
      closed evs = (opened evs).reverse ∧
      path ≠ path ++ ".new.txt" ∧
      ((opened evs = [] ∧ closed evs = [] ∧
          (FM < strlen path + strlen POSTFIX ∨ ∃ reason, w.fs.rd path = .error reason)) ∨
        (opened evs = [path] ∧ closed evs = [path] ∧
          ∃ reason, w.fs.wr (path ++ ".new.txt") = some reason) ∨
        (opened evs = [path, path ++ ".new.txt"] ∧ closed evs = [path ++ ".new.txt", path] ∧
          w.fs.wr (path ++ ".new.txt") = none)) := by
  by_cases hlong : FM < strlen path + strlen POSTFIX
  · refine ⟨_, [.stderr (tooLongDiag path)], convert_too_long FM e path w hlong, rfl, rfl, rfl,
      path_ne_buf path, Or.inl ⟨rfl, rfl, Or.inl hlong⟩⟩
  · have hpath : strlen path + strlen POSTFIX ≤ FM := Nat.le_of_not_lt hlong
    cases hin : w.fs.rd path with
    | error reason =>
      refine ⟨_, [.fopen path "rb" false, .stderr (fopenDiag path reason)],
        convert_rd_fail FM e path w reason hpath hin, by simp [World.emit], rfl, rfl,
        path_ne_buf path, Or.inl ⟨rfl, rfl, Or.inr ⟨reason, rfl⟩⟩⟩
    | ok inp =>
      cases hout : w.fs.wr (path ++ ".new.txt") with
      | some reason =>
        refine ⟨_, _, convert_wr_fail FM e path w inp reason hpath hin hout, rfl, ?_, rfl,
          path_ne_buf path, Or.inr (Or.inl ⟨rfl, rfl, reason, rfl⟩)⟩
        simp [balanced]
      | none =>
        obtain ⟨w1, hc, htr, -, -, -⟩ := convert_opened FM e path w inp hpath hin hout
        have huse := uses_bodyEvents path (path ++ ".new.txt") inp
        have hop : opened (bodyEvents path (path ++ ".new.txt") inp) = [] :=
          opened_of_uses _ (fun ev h => (huse ev h).1)
        have hcl : closed (bodyEvents path (path ++ ".new.txt") inp) = [] :=
          closed_of_uses _ (fun ev h => (huse ev h).1)
        have ho : opened (.fopen path "rb" true :: .fopen (path ++ ".new.txt") "wb" true ::
            bodyEvents path (path ++ ".new.txt") inp
              ++ [.fclose (path ++ ".new.txt"), .fclose path])
            = [path, path ++ ".new.txt"] := by
          simp [opened, opened_append, hop]
        have hc2 : closed (.fopen path "rb" true :: .fopen (path ++ ".new.txt") "wb" true ::
            bodyEvents path (path ++ ".new.txt") inp
              ++ [.fclose (path ++ ".new.txt"), .fclose path])
            = [path ++ ".new.txt", path] := by
          simp [closed, closed_append, hcl]
        refine ⟨w1, _, hc, htr, ?_, ?_, path_ne_buf path, Or.inr (Or.inr ⟨ho, hc2, rfl⟩)⟩
        · have hb := balanced_of_uses path (path ++ ".new.txt")
            [.fclose (path ++ ".new.txt"), .fclose path] _ huse
          have hend : balanced [path ++ ".new.txt", path]
              [.fclose (path ++ ".new.txt"), .fclose path] = true := by
            simp [balanced]
          exact hb.trans hend
        · rw [ho, hc2]
          rfl

/-! ## Dependence on the decoded bytes -/

theorem getD_of_take_eq (l1 l2 : List Byte) (n j : Nat) (h : l1.take n = l2.take n)
    (hj : j < n) : l1.getD j 0 = l2.getD j 0 := by
  have h1 : (l1.take n)[j]? = l1[j]? := by simp [List.getElem?_take, hj]
  have h2 : (l2.take n)[j]? = l2[j]? := by simp [List.getElem?_take, hj]
  rw [List.getD_eq_getElem?_getD, List.getD_eq_getElem?_getD, ← h1, ← h2, h]

theorem getD_of_drop_take_eq (l1 l2 : List Byte) (d n j : Nat)
    (h : (l1.drop d).take n = (l2.drop d).take n) (hj : j < n) :
    l1.getD (d + j) 0 = l2.getD (d + j) 0 := by
  have := getD_of_take_eq _ _ n j h hj
  simpa [List.getD_eq_getElem?_getD, List.getElem?_drop] using this

theorem le32At_of_take_eq (l1 l2 : List Byte) (h : l1.take 4 = l2.take 4) :
    le32At l1 0 = le32At l2 0 := by
  unfold le32At
  rw [getD_of_take_eq l1 l2 4 0 h (by omega), getD_of_take_eq l1 l2 4 (0 + 1) h (by omega),
    getD_of_take_eq l1 l2 4 (0 + 2) h (by omega), getD_of_take_eq l1 l2 4 (0 + 3) h (by omega)]

theorem le32At_of_drop_take_eq (l1 l2 : List Byte) (d n j : Nat)
    (h : (l1.drop d).take n = (l2.drop d).take n) (hj : j + 3 < n) :
    le32At l1 (d + j) = le32At l2 (d + j) := by
  unfold le32At
  have e0 := getD_of_drop_take_eq l1 l2 d n j h (by omega)
  have e1 := getD_of_drop_take_eq l1 l2 d n (j + 1) h (by omega)
  have e2 := getD_of_drop_take_eq l1 l2 d n (j + 2) h (by omega)
  have e3 := getD_of_drop_take_eq l1 l2 d n (j + 3) h (by omega)
  simp only [← Nat.add_assoc] at e1 e2 e3
  rw [e0, e1, e2, e3]

theorem consumed_append (a b : List Event) : consumed (a ++ b) = consumed a + consumed b := by
  induction a with
  | nil => simp [consumed]
  | cons ev a ih => cases ev <;> simp [consumed, ih, Nat.add_assoc]

theorem consumed_counterEvents (path buf : String) (vals : List Nat) :
    consumed (counterEvents path buf vals) = 4 * vals.length := by
  induction vals with
  | nil => rfl
  | cons v vs ih => simp [counterEvents, consumed, ih]; omega
/-- C11: two inputs that both hold the bytes 0..3 (channel count `N`), 6..9
and `10 .. 10+4N-1` and agree on them give, with both files opening, the same
events of `convert` (hence the same progress line and the same diagnostics)
and the same output file, whatever their bytes 4..5 and their bytes from
offset `10+4N` on are; the reads of `convert` take exactly `4 + 2 + 4 + 4*N`
bytes from such an input. -/
theorem convert_depends_on_decoded (FM : Nat) (e : Endian) (path : String) (w1 w2 : World)
    (inp1 inp2 : List Byte)
    (hpath : strlen path + strlen POSTFIX ≤ FM)
    (hin1 : w1.fs.rd path = .ok inp1) (hin2 : w2.fs.rd path = .ok inp2)
    (hout1 : w1.fs.wr (path ++ ".new.txt") = none)
    (hout2 : w2.fs.wr (path ++ ".new.txt") = none)
    (hlen1 : 10 + 4 * le32At inp1 0 ≤ inp1.length)
    (hlen2 : 10 + 4 * le32At inp1 0 ≤ inp2.length)
    (hsize : inp1.take 4 = inp2.take 4)
    (hrest : (inp1.drop 6).take (4 + 4 * le32At inp1 0)
      = (inp2.drop 6).take (4 + 4 * le32At inp1 0)) :
    ∃ r1 r2 evs, convert FM e path w1 = some r1 ∧ convert FM e path w2 = some r2 ∧
      r1.trace = w1.trace ++ evs ∧ r2.trace = w2.trace ++ evs ∧
      r1.fs.rd (path ++ ".new.txt") = r2.fs.rd (path ++ ".new.txt") ∧
      consumed evs = 4 + 2 + 4 + 4 * le32At inp1 0 := by
  obtain ⟨r1, hc1, ht1, hb1, -, -⟩ := convert_opened FM e path w1 inp1 hpath hin1 hout1
  obtain ⟨r2, hc2, ht2, hb2, -, -⟩ := convert_opened FM e path w2 inp2 hpath hin2 hout2
  have hN : le32At inp1 0 = le32At inp2 0 := le32At_of_take_eq inp1 inp2 hsize
  have hlive : le32At inp1 6 = le32At inp2 6 :=
    le32At_of_drop_take_eq inp1 inp2 6 _ 0 hrest (by omega)
  have hvals : counterValues inp1 = counterValues inp2 := by
    rw [counterValues_wellformed inp1 hlen1, counterValues_wellformed inp2 (hN ▸ hlen2), ← hN]
    apply List.map_congr_left
    intro i hi
    have hi2 : i < le32At inp1 0 := List.mem_range.mp hi
    have := le32At_of_drop_take_eq inp1 inp2 6 _ (4 + 4 * i) hrest (by omega)
    rw [show 6 + (4 + 4 * i) = 10 + 4 * i by omega] at this
    exact this
  have hbody : bodyEvents path (path ++ ".new.txt") inp1
      = bodyEvents path (path ++ ".new.txt") inp2 := by
    have a1 : ¬ inp1.length < 4 := by omega
    have a2 : ¬ inp1.length < 6 := by omega
    have a3 : ¬ inp1.length < 10 := by omega
    have b1 : ¬ inp2.length < 4 := by omega
    have b2 : ¬ inp2.length < 6 := by omega
    have b3 : ¬ inp2.length < 10 := by omega
    have c1 : ¬ (inp1.drop 10).length < 4 * le32At inp1 0 := by simp; omega
    have c2 : ¬ (inp2.drop 10).length < 4 * le32At inp1 0 := by simp; omega
    simp only [bodyEvents, a1, a2, a3, b1, b2, b3, if_false, ← hN, ← hlive, hvals, tailEvents,
      c1, c2]
  refine ⟨r1, r2, _, hc1, hc2, ht1, by rw [ht2, hbody], by rw [hb1, hb2, hvals], ?_⟩
  have a1 : ¬ inp1.length < 4 := by omega
  have a2 : ¬ inp1.length < 6 := by omega
  have a3 : ¬ inp1.length < 10 := by omega
  have c1 : ¬ (inp1.drop 10).length < 4 * le32At inp1 0 := by simp; omega
  have hl : (counterValues inp1).length = le32At inp1 0 := by
    rw [counterValues_wellformed inp1 hlen1]
    simp
  have hcons : consumed (bodyEvents path (path ++ ".new.txt") inp1)
      = 10 + 4 * le32At inp1 0 := by
    simp only [bodyEvents, a1, a2, a3, if_false, tailEvents, c1, List.cons_append,
      List.append_nil, consumed, consumed_counterEvents, hl, List.nil_append]
    omega
  rw [consumed_append]
  simp only [consumed, hcons]
  omega

/-- Witness of C11: the example input, and the same counters behind other
gap bytes and before a trailer of three bytes. -/
theorem convert_depends_on_decoded_witness :
    ∃ r1 r2 evs,
      convert 4096 .little "a.dat" (World.init (FS.single "a.dat" exampleInput)) = some r1 ∧
      convert 4096 .little "a.dat" (World.init (FS.single "a.dat"
        [2, 0, 0, 0, 7, 9, 0x10, 0, 0, 0, 0x2A, 0, 0, 0, 0x64, 0, 0, 0, 1, 2, 3])) = some r2 ∧
      r1.trace = evs ∧ r2.trace = evs ∧
      r1.fs.rd "a.dat.new.txt" = r2.fs.rd "a.dat.new.txt" ∧ consumed evs = 18 := by
  obtain ⟨r1, r2, evs, h1, h2, h3, h4, h5, h6⟩ :=
    convert_depends_on_decoded 4096 .little "a.dat"
      (World.init (FS.single "a.dat" exampleInput))
      (World.init (FS.single "a.dat"
        [2, 0, 0, 0, 7, 9, 0x10, 0, 0, 0, 0x2A, 0, 0, 0, 0x64, 0, 0, 0, 1, 2, 3]))
      exampleInput [2, 0, 0, 0, 7, 9, 0x10, 0, 0, 0, 0x2A, 0, 0, 0, 0x64, 0, 0, 0, 1, 2, 3]
      (by decide) rfl rfl rfl rfl (by decide) (by decide) (by decide) (by decide)
  exact ⟨r1, r2, evs, h1, h2, h3, h4, h5, h6⟩

/-- C12: for every path and every world (every content of the input, complete
or truncated, and every outcome of the opens), `convert` run a second time
right after the first makes the same calls again and leaves the file system,
the output file in it, exactly as the first run left it: the output is
rewritten from empty, not appended to. -/
theorem convert_idempotent (FM : Nat) (e : Endian) (path : String) (w : World) :
    ∃ w1 w2 evs, convert FM e path w = some w1 ∧ convert FM e path w1 = some w2 ∧
      w1.trace = w.trace ++ evs ∧ w2.trace = w1.trace ++ evs ∧
      w2.fs.rd (path ++ ".new.txt") = w1.fs.rd (path ++ ".new.txt") ∧
      w2.fs = w1.fs := by
  by_cases hlong : FM < strlen path + strlen POSTFIX
  · refine ⟨_, _, [.stderr (tooLongDiag path)], convert_too_long FM e path w hlong,
      convert_too_long FM e path _ hlong, rfl, rfl, rfl, rfl⟩
  · have hpath : strlen path + strlen POSTFIX ≤ FM := Nat.le_of_not_lt hlong
    cases hin : w.fs.rd path with
    | error reason =>
      refine ⟨_, _, [.fopen path "rb" false, .stderr (fopenDiag path reason)],
        convert_rd_fail FM e path w reason hpath hin,
        convert_rd_fail FM e path _ reason hpath hin, ?_, ?_, rfl, rfl⟩
      · simp [World.emit]
      · simp [World.emit]
    | ok inp =>
      cases hout : w.fs.wr (path ++ ".new.txt") with
      | some reason =>
        exact ⟨_, _, _, convert_wr_fail FM e path w inp reason hpath hin hout,
          convert_wr_fail FM e path _ inp reason hpath hin hout, rfl, rfl, rfl, rfl⟩
      | none =>
        obtain ⟨w1, hc1, ht1, hb1, hw1, ho1⟩ := convert_opened FM e path w inp hpath hin hout
        have hin1 : w1.fs.rd path = .ok inp := by rw [ho1 path (path_ne_buf path), hin]
        have hout1 : w1.fs.wr (path ++ ".new.txt") = none := by rw [hw1, hout]
        obtain ⟨w2, hc2, ht2, hb2, hw2, ho2⟩ :=
          convert_opened FM e path w1 inp hpath hin1 hout1
        refine ⟨w1, w2, _, hc1, hc2, ht1, ht2, by rw [hb1, hb2], ?_⟩
        apply FS.ext_rd_wr
        · intro p
          by_cases hp : p = path ++ ".new.txt"
          · rw [hp, hb1, hb2]
          · exact ho2 p hp
        · exact hw2

/-- C14: when the path passes the length check and the input cannot be
opened, `convert` makes the failed open and writes one diagnostic with the
input path and the reason, nothing else: the file system, the output file in
it, is left as it was. When the input opens and the output cannot be opened,
`convert` writes one diagnostic with the output path and the reason and
closes the input, without any read; the file system is left as it was. In
both cases nothing is written to standard output. -/
theorem convert_open_failures (FM : Nat) (e : Endian) (path : String) (w : World)
    (hpath : strlen path + strlen POSTFIX ≤ FM) :
    (∀ reason, w.fs.rd path = .error reason →
      convert FM e path w
        = some { fs := w.fs,
                 trace := w.trace ++ [.fopen path "rb" false,
                   .stderr ("fopen: " ++ path ++ ": " ++ reason ++ "\n")] }) ∧
    (∀ inp reason, w.fs.rd path = .ok inp → w.fs.wr (path ++ ".new.txt") = some reason →
      convert FM e path w
        = some { fs := w.fs,
                 trace := w.trace ++ [.fopen path "rb" true,
                   .fopen (path ++ ".new.txt") "wb" false,
                   .stderr ("fopen: " ++ (path ++ ".new.txt") ++ ": " ++ reason ++ "\n"),
                   .fclose path] }) := by
  constructor
  · intro reason hin
    rw [convert_rd_fail FM e path w reason hpath hin]
    simp [World.emit, fopenDiag]
  · intro inp reason hin hout
    rw [convert_wr_fail FM e path w inp reason hpath hin hout]
    rfl

/-- Witness of C14: a missing input, and an input in a place where nothing
can be created. -/
theorem convert_open_failures_witness :
    convert 4096 .little "b.dat" (World.init (FS.single "a.dat" exampleInput))
      = some { fs := FS.single "a.dat" exampleInput,
               trace := [.fopen "b.dat" "rb" false,
                 .stderr "fopen: b.dat: No such file or directory\n"] } ∧
    convert 4096 .little "a.dat" (World.init (FS.readOnly "a.dat" exampleInput))
      = some { fs := FS.readOnly "a.dat" exampleInput,
               trace := [.fopen "a.dat" "rb" true, .fopen "a.dat.new.txt" "wb" false,
                 .stderr "fopen: a.dat.new.txt: Permission denied\n", .fclose "a.dat"] } :=
  ⟨(convert_open_failures 4096 .little "b.dat" (World.init (FS.single "a.dat" exampleInput))
      (by decide)).1 "No such file or directory" rfl,
   (convert_open_failures 4096 .little "a.dat" (World.init (FS.readOnly "a.dat" exampleInput))
      (by decide)).2 exampleInput "Permission denied" rfl rfl⟩

theorem le32At_append_left (l ext : List Byte) (j : Nat) (h : j + 3 < l.length) :
    le32At (l ++ ext) j = le32At l j := by
  unfold le32At
  rw [List.getD_append _ _ _ _ (by omega), List.getD_append _ _ _ _ (by omega),
    List.getD_append _ _ _ _ (by omega), List.getD_append _ _ _ _ (by omega)]

/-- C15: for every input of length `L` with `10 ≤ L < 10 + 4 * size` (both
files opening) the output file left by `convert` holds exactly
`(L - 10) / 4` lines, the decimal values of the first `(L - 10) / 4` counters
in order (the 1 to 3 bytes of an incomplete counter give no line), and it is
a prefix of the output file of every well-formed input that extends this one. -/
theorem convert_truncated_prefix (FM : Nat) (e : Endian) (path : String) (w w2 : World)
    (inp ext : List Byte)
    (hpath : strlen path + strlen POSTFIX ≤ FM)
    (hin : w.fs.rd path = .ok inp)
    (hout : w.fs.wr (path ++ ".new.txt") = none)
    (h10 : 10 ≤ inp.length)
    (hshort : inp.length < 10 + 4 * le32At inp 0)
    (hin2 : w2.fs.rd path = .ok (inp ++ ext))
    (hout2 : w2.fs.wr (path ++ ".new.txt") = none)
    (hfull : 10 + 4 * le32At inp 0 ≤ (inp ++ ext).length) :
    ∃ r r2 more, convert FM e path w = some r ∧ convert FM e path w2 = some r2 ∧
      r.fs.rd (path ++ ".new.txt")
        = .ok (((List.range ((inp.length - 10) / 4)).map
            (fun i => bytesOf (Nat.repr (le32At inp (10 + 4 * i))) ++ [13, 10])).flatten) ∧
      ((List.range ((inp.length - 10) / 4)).map
          (fun i => bytesOf (Nat.repr (le32At inp (10 + 4 * i))) ++ [13, 10])).length
        = (inp.length - 10) / 4 ∧
      r2.fs.rd (path ++ ".new.txt")
        = .ok (((List.range ((inp.length - 10) / 4)).map
            (fun i => bytesOf (Nat.repr (le32At inp (10 + 4 * i))) ++ [13, 10])).flatten
          ++ more) := by
  obtain ⟨r, hc, -, hrd, -, -⟩ := convert_opened FM e path w inp hpath hin hout
  obtain ⟨r2, hc2, -, hrd2, -, -⟩ := convert_opened FM e path w2 (inp ++ ext) hpath hin2 hout2
  have hN : le32At (inp ++ ext) 0 = le32At inp 0 := le32At_append_left inp ext 0 (by omega)
  have hk : (inp.length - 10) / 4 < le32At inp 0 := by omega
  have hsplit : le32At inp 0
      = (inp.length - 10) / 4 + (le32At inp 0 - (inp.length - 10) / 4) := by omega
  refine ⟨r, r2,
    ((List.range (le32At inp 0 - (inp.length - 10) / 4)).map
      (fun i => bytesOf (Nat.repr (le32At (inp ++ ext) (10 + 4 * ((inp.length - 10) / 4 + i))))
        ++ [13, 10])).flatten,
    hc, hc2, ?_, by simp, ?_⟩
  · rw [hrd, linesText_bytes, counterValues_truncated inp h10 hshort, List.map_map]
    rfl
  · rw [hrd2, linesText_bytes, counterValues_wellformed (inp ++ ext) (by rw [hN]; exact hfull),
      hN, List.map_map]
    conv_lhs => rw [hsplit, List.range_add, List.map_append, List.flatten_append]
    congr 2
    · apply congrArg
      apply List.map_congr_left
      intro i hi
      have hi2 : i < (inp.length - 10) / 4 := List.mem_range.mp hi
      simp only [Function.comp]
      rw [le32At_append_left inp ext (10 + 4 * i) (by omega)]
    · rw [List.map_map]
      rfl

/-- Witness of C15: a count of 3 with one counter and three more bytes, and
its extension to three counters. -/
theorem convert_truncated_prefix_witness :
    ∃ r r2 more,
      convert 4096 .little "a.dat" (World.init (FS.single "a.dat"
        [3, 0, 0, 0, 0, 0, 1, 0, 0, 0, 0x2A, 0, 0, 0, 0x64, 0, 0])) = some r ∧
      convert 4096 .little "a.dat" (World.init (FS.single "a.dat"
        ([3, 0, 0, 0, 0, 0, 1, 0, 0, 0, 0x2A, 0, 0, 0, 0x64, 0, 0] ++ [0, 7, 0, 0, 0])))
        = some r2 ∧
      r.fs.rd "a.dat.new.txt" = .ok (bytesOf "42\r\n") ∧
      r2.fs.rd "a.dat.new.txt" = .ok (bytesOf "42\r\n" ++ more) := by
  obtain ⟨r, r2, more, h1, h2, h3, -, h4⟩ :=
    convert_truncated_prefix 4096 .little "a.dat"
      (World.init (FS.single "a.dat"
        [3, 0, 0, 0, 0, 0, 1, 0, 0, 0, 0x2A, 0, 0, 0, 0x64, 0, 0]))
      (World.init (FS.single "a.dat"
        ([3, 0, 0, 0, 0, 0, 1, 0, 0, 0, 0x2A, 0, 0, 0, 0x64, 0, 0] ++ [0, 7, 0, 0, 0])))
      [3, 0, 0, 0, 0, 0, 1, 0, 0, 0, 0x2A, 0, 0, 0, 0x64, 0, 0] [0, 7, 0, 0, 0]
      (by decide) rfl rfl (by decide) (by decide) rfl rfl (by decide)
  exact ⟨r, r2, more, h1, h2, h3, h4⟩

/-! ## Writes that may fail -/

theorem fprintfMay_trace (w : World) (ok : Bool) (path text : String) :
    (w.fprintfMay ok path text).1.trace = w.trace ++ [.fprintf path text] := by
  cases ok <;> simp [World.fprintfMay, World.fprintf]

theorem counterLoopW_trace (wok : Nat → Bool) (e : Endian) (path buf : String) (size : Nat) :
    ∀ (fuel i : Nat) (fin : List Byte) (w w0 : World), w0.trace = w.trace →
      (counterLoopW wok e path buf size fuel i fin w0).map World.trace
        = (counterLoop e path buf size fuel i fin w).map World.trace := by
  intro fuel
  induction fuel with
  | zero => intro i fin w w0 _; rfl
  | succ fuel ih =>
    intro i fin w w0 htr
    by_cases hi : i < size
    · rcases fin with _ | ⟨b0, _ | ⟨b1, _ | ⟨b2, _ | ⟨b3, rest⟩⟩⟩⟩
      · simp [counterLoopW, counterLoop, hi, fread, cleanup_fout_trace, World.emit, htr]
      · simp [counterLoopW, counterLoop, hi, fread, cleanup_fout_trace, World.emit, htr]
      · simp [counterLoopW, counterLoop, hi, fread, cleanup_fout_trace, World.emit, htr]
      · simp [counterLoopW, counterLoop, hi, fread, cleanup_fout_trace, World.emit, htr]
      · simp only [counterLoopW, counterLoop, hi, if_true, fread, List.take, List.drop]
        apply ih
        rw [fprintfMay_trace]
        simp [World.fprintf, World.emit, htr]
    · simp [counterLoopW, counterLoop, hi, cleanup_fout_trace, htr]

theorem counterLoopW_all_ok (e : Endian) (path buf : String) (size : Nat) :
    ∀ (fuel i : Nat) (fin : List Byte) (w : World),
      counterLoopW (fun _ => true) e path buf size fuel i fin w
        = counterLoop e path buf size fuel i fin w := by
  intro fuel
  induction fuel with
  | zero => intro i fin w; rfl
  | succ fuel ih =>
    intro i fin w
    simp only [counterLoopW, counterLoop, World.fprintfMay, if_true, ih]

theorem convertW_trace (wok : Nat → Bool) (FM : Nat) (e : Endian) (path : String)
    (w : World) :
    (convertW wok FM e path w).map World.trace = (convert FM e path w).map World.trace := by
  by_cases hlong : FM < strlen path + strlen POSTFIX
  · simp [convertW, convert, hlong]
  · cases hin : w.fs.rd path with
    | error reason => simp [convertW, convert, hlong, fopen_rb, hin]
    | ok inp =>
      cases hout : w.fs.wr (path ++ ".new.txt") with
      | some reason => simp [convertW, convert, hlong, fopen_rb, hin, fopen_wb, hout, World.emit]
      | none =>
        rcases inp with _ | ⟨s0, _ | ⟨s1, _ | ⟨s2, _ | ⟨s3, _ | ⟨g0, _ | ⟨g1, _ | ⟨l0,
          _ | ⟨l1, _ | ⟨l2, _ | ⟨l3, body⟩⟩⟩⟩⟩⟩⟩⟩⟩⟩
        on_goal 11 =>
          simp only [convertW, convert, hlong, if_false, fopen_rb, hin, fopen_wb, World.emit,
            hout, fread, List.take, List.drop]
          exact counterLoopW_trace wok e path _ _ _ _ _ _ _ rfl
        all_goals
          simp [convertW, convert, hlong, fopen_rb, hin, fopen_wb, hout, fread, World.emit]

/-- C13, counterexample: on the example input, with every write to the output
file failing, `convert` writes no diagnostic and does not stop: after the
failed write of "42" it reads the second counter and calls `fprintf` for
"100"; the output file is left empty. -/
theorem write_failure_counterexample :
    ∃ w1, convertW (fun _ => false) 4096 .little "a.dat"
        (World.init (FS.single "a.dat" exampleInput)) = some w1 ∧
      diagnostics w1.trace = [] ∧
      w1.trace = [.fopen "a.dat" "rb" true, .fopen "a.dat.new.txt" "wb" true,
        .fread "a.dat" 4 4, .fread "a.dat" 2 2, .fread "a.dat" 4 4,
        .stdout "converting: a.dat           \t   2 channels\t  16 live seconds\n",
        .fread "a.dat" 4 4, .fprintf "a.dat.new.txt" "42\r\n",
        .fread "a.dat" 4 4, .fprintf "a.dat.new.txt" "100\r\n",
        .fclose "a.dat.new.txt", .fclose "a.dat"] ∧
      w1.fs.rd "a.dat.new.txt" = .ok [] :=
  ⟨_, rfl, by decide, by decide, rfl⟩

/-- C13, amended: a write failure on the output file is neither reported nor
terminal. Whatever writes of counter lines fail, `convert` returns and makes
the same calls, reads the same counters and writes the same console lines and
diagnostics as when every write succeeds; with no failing write it is
`convert`. -/
theorem convert_ignores_write_failure (wok : Nat → Bool) (FM : Nat) (e : Endian)
    (path : String) (w : World) :
    (∃ w1 w2, convertW wok FM e path w = some w1 ∧ convert FM e path w = some w2 ∧
      w1.trace = w2.trace ∧ diagnostics w1.trace = diagnostics w2.trace ∧
      console w1.trace = console w2.trace) ∧
    convertW (fun _ => true) FM e path w = convert FM e path w := by
  constructor
  · obtain ⟨w2, h2⟩ := convert_total FM e path w
    have ht := convertW_trace wok FM e path w
    rw [h2] at ht
    cases h1 : convertW wok FM e path w with
    | none => rw [h1] at ht; simp at ht
    | some w1 =>
      rw [h1] at ht
      have heq : w1.trace = w2.trace := by simpa using ht
      exact ⟨w1, w2, rfl, h2, heq, by rw [heq], by rw [heq]⟩
  · simp only [convertW, convert, counterLoopW_all_ok]

/-! ## Decimal text and its reading -/

theorem toDigitsCore_append (fuel : Nat) :
    ∀ (n : Nat) (ds : List Char),
      Nat.toDigitsCore 10 fuel n ds = Nat.toDigitsCore 10 fuel n [] ++ ds := by
  induction fuel with
  | zero => intro n ds; simp [Nat.toDigitsCore]
  | succ fuel ih =>
    intro n ds
    simp only [Nat.toDigitsCore]
    by_cases h : n / 10 = 0
    · simp [h]
    · simp only [h, if_false]
      rw [ih (n / 10) (Nat.digitChar (n % 10) :: ds), ih (n / 10) [Nat.digitChar (n % 10)]]
      simp

theorem digitChar_toNat : ∀ d, d < 10 → (Nat.digitChar d).toNat = 48 + d := by
  decide

theorem toDigitsCore_value (fuel : Nat) :
    ∀ n, n < fuel →
      (∀ c ∈ Nat.toDigitsCore 10 fuel n [], 48 ≤ c.toNat ∧ c.toNat ≤ 57) ∧
      decValue (Nat.toDigitsCore 10 fuel n []) 0 = n := by
  induction fuel with
  | zero => intro n h; omega
  | succ fuel ih =>
    intro n hn
    have hd := digitChar_toNat (n % 10) (Nat.mod_lt _ (by decide))
    simp only [Nat.toDigitsCore]
    by_cases h : n / 10 = 0
    · simp only [h, if_true, List.mem_singleton, forall_eq, decValue, List.foldl_cons,
        List.foldl_nil, hd]
      omega
    · simp only [h, if_false]
      rw [toDigitsCore_append]
      obtain ⟨ih1, ih2⟩ := ih (n / 10) (by omega)
      constructor
      · intro c hc
        rcases List.mem_append.mp hc with hc | hc
        · exact ih1 c hc
        · rw [List.mem_singleton.mp hc, hd]
          omega
      · unfold decValue at ih2 ⊢
        rw [List.foldl_append, ih2]
        simp only [List.foldl_cons, List.foldl_nil, hd]
        omega

theorem parseLines_step (acc : Nat) (b : Byte) (tail : List Byte) (ht : tail ≠ [])
    (hb : b.val ≠ 13) :
    parseLines acc (b :: tail) = parseLines (10 * acc + (b.val - 48)) tail := by
  cases tail with
  | nil => exact absurd rfl ht
  | cons l rest => simp [parseLines, hb]

theorem parseLines_digits :
    ∀ (cs : List Char) (acc : Nat) (rest : List Byte),
      (∀ c ∈ cs, 48 ≤ c.toNat ∧ c.toNat ≤ 57) →
      parseLines acc (cs.map (fun c => (Fin.ofNat c.toNat : Byte)) ++ 13 :: 10 :: rest)
        = decValue cs acc :: parseLines 0 rest := by
  intro cs
  induction cs with
  | nil =>
    intro acc rest _
    have h13 : ((13 : Byte)).val = 13 := rfl
    have h10 : ((10 : Byte)).val = 10 := rfl
    simp [parseLines, decValue, h13, h10]
  | cons c cs ih =>
    intro acc rest h
    have hc := h c (List.mem_cons_self _ _)
    have hval : (Fin.ofNat c.toNat : Byte).val = c.toNat := by
      simp only [Fin.ofNat, Fin.val_mk]
      omega
    rw [List.map_cons, List.cons_append, parseLines_step _ _ _ (by simp) (by rw [hval]; omega),
      ih _ rest (fun x hx => h x (List.mem_cons_of_mem _ hx)), hval]
    rfl

theorem parseLines_lines :
    ∀ (vals : List Nat) ,
      parseLines 0 ((vals.map (fun v => bytesOf (Nat.repr v) ++ [13, 10])).flatten) = vals := by
  intro vals
  induction vals with
  | nil => rfl
  | cons v vs ih =>
    obtain ⟨h1, h2⟩ := toDigitsCore_value (v + 1) v (by omega)
    have hb : bytesOf (Nat.repr v)
        = (Nat.toDigits 10 v).map (fun c => (Fin.ofNat c.toNat : Byte)) := rfl
    rw [List.map_cons, List.flatten_cons, hb, List.append_assoc]
    have := parseLines_digits (Nat.toDigits 10 v) 0
      ((vs.map (fun v => bytesOf (Nat.repr v) ++ [13, 10])).flatten) h1
    simp only [List.cons_append, List.nil_append]
    rw [this, ih]
    congr 1

/-- C16: for a well-formed input (both files opening) the output file of
`convert`, read back by splitting on CR LF and reading each line as a decimal
number, gives exactly the `N` counter values in order; hence two well-formed
inputs whose sequences of counters differ, in length or in an element, leave
different output files. -/
theorem convert_output_roundtrip (FM : Nat) (e : Endian) (path : String) (w1 w2 : World)
    (inp1 inp2 : List Byte)
    (hpath : strlen path + strlen POSTFIX ≤ FM)
    (hin1 : w1.fs.rd path = .ok inp1) (hin2 : w2.fs.rd path = .ok inp2)
    (hout1 : w1.fs.wr (path ++ ".new.txt") = none)
    (hout2 : w2.fs.wr (path ++ ".new.txt") = none)
    (hlen1 : 10 + 4 * le32At inp1 0 ≤ inp1.length)
    (hlen2 : 10 + 4 * le32At inp2 0 ≤ inp2.length) :
    ∃ r1 r2 out1 out2, convert FM e path w1 = some r1 ∧ convert FM e path w2 = some r2 ∧
      r1.fs.rd (path ++ ".new.txt") = .ok out1 ∧ r2.fs.rd (path ++ ".new.txt") = .ok out2 ∧
      parseLines 0 out1 = (List.range (le32At inp1 0)).map (fun i => le32At inp1 (10 + 4 * i)) ∧
      parseLines 0 out2 = (List.range (le32At inp2 0)).map (fun i => le32At inp2 (10 + 4 * i)) ∧
      ((List.range (le32At inp1 0)).map (fun i => le32At inp1 (10 + 4 * i))
          ≠ (List.range (le32At inp2 0)).map (fun i => le32At inp2 (10 + 4 * i)) →
        out1 ≠ out2) := by
  obtain ⟨r1, hc1, -, hrd1, -, -⟩ := convert_opened FM e path w1 inp1 hpath hin1 hout1
  obtain ⟨r2, hc2, -, hrd2, -, -⟩ := convert_opened FM e path w2 inp2 hpath hin2 hout2
  rw [linesText_bytes, counterValues_wellformed inp1 hlen1] at hrd1
  rw [linesText_bytes, counterValues_wellformed inp2 hlen2] at hrd2
  have p1 := parseLines_lines ((List.range (le32At inp1 0)).map
    (fun i => le32At inp1 (10 + 4 * i)))
  have p2 := parseLines_lines ((List.range (le32At inp2 0)).map
    (fun i => le32At inp2 (10 + 4 * i)))
  refine ⟨r1, r2, _, _, hc1, hc2, hrd1, hrd2, p1, p2, ?_⟩
  intro hne heq
  apply hne
  rw [← p1, ← p2, heq]

/-- Witness of C16: the example input and the same input with its second
counter changed to 101. -/
theorem convert_output_roundtrip_witness :
    ∃ r1 r2 out1 out2,
      convert 4096 .big "a.dat" (World.init (FS.single "a.dat" exampleInput)) = some r1 ∧
      convert 4096 .big "a.dat" (World.init (FS.single "a.dat"
        [2, 0, 0, 0, 0xFF, 0xFF, 0x10, 0, 0, 0, 0x2A, 0, 0, 0, 0x65, 0, 0, 0])) = some r2 ∧
      r1.fs.rd "a.dat.new.txt" = .ok out1 ∧ r2.fs.rd "a.dat.new.txt" = .ok out2 ∧
      parseLines 0 out1 = [42, 100] ∧ parseLines 0 out2 = [42, 101] ∧ out1 ≠ out2 := by
  obtain ⟨r1, r2, out1, out2, h1, h2, h3, h4, h5, h6, h7⟩ :=
    convert_output_roundtrip 4096 .big "a.dat"
      (World.init (FS.single "a.dat" exampleInput))
      (World.init (FS.single "a.dat"
        [2, 0, 0, 0, 0xFF, 0xFF, 0x10, 0, 0, 0, 0x2A, 0, 0, 0, 0x65, 0, 0, 0]))
      exampleInput [2, 0, 0, 0, 0xFF, 0xFF, 0x10, 0, 0, 0, 0x2A, 0, 0, 0, 0x65, 0, 0, 0]
      (by decide) rfl rfl rfl rfl (by decide) (by decide)
  exact ⟨r1, r2, out1, out2, h1, h2, h3, h4, h5, h6, h7 (by decide)⟩

/-! ## Termination of the counter loop -/

theorem counterLoop_fuel (e : Endian) (path buf : String) (size : Nat) (hsize : size < 2 ^ 32) :
    ∀ (fuel k i : Nat) (fin : List Byte) (w : World), i + k = size →
      min k (fin.length / 4 + 1) < fuel →
      counterLoop e path buf size fuel i fin w
        = some (convert_cleanup_fout path buf
            (loopTail path k fin (writeCounters path buf (decodeCounters k fin) w))) := by
  intro fuel
  induction fuel with
  | zero => intro k i fin w _ hk; omega
  | succ fuel ih =>
    intro k i fin w hik hk
    cases k with
    | zero =>
      have hi : ¬ i < size := by omega
      simp [counterLoop, hi, decodeCounters, writeCounters, loopTail]
    | succ k =>
      have hi : i < size := by omega
      have hmod : (i + 1) % 2 ^ 32 = i + 1 := Nat.mod_eq_of_lt (by omega)
      rcases fin with _ | ⟨b0, _ | ⟨b1, _ | ⟨b2, _ | ⟨b3, rest⟩⟩⟩⟩
      · simp [counterLoop, hi, fread, decodeCounters, writeCounters, loopTail]
      · simp only [counterLoop, hi, fread, decodeCounters, writeCounters, loopTail, if_true,
          List.take, List.drop, List.length]
        rw [if_pos (by omega)]
      · simp only [counterLoop, hi, fread, decodeCounters, writeCounters, loopTail, if_true,
          List.take, List.drop, List.length]
        rw [if_pos (by omega)]
      · simp only [counterLoop, hi, fread, decodeCounters, writeCounters, loopTail, if_true,
          List.take, List.drop, List.length]
        rw [if_pos (by omega)]
      · have hrec := ih k (i + 1) rest
          ((w.emit (.fread path 4 4)).fprintf buf (fmtU (le32 b0 b1 b2 b3) ++ TERMINATOR))
          (by omega) (by simp only [List.length_cons] at hk; omega)
        simp only [counterLoop, hi, fread, if_true, List.take, List.drop, hmod,
          le32toh_load32, toUnsigned_le32, hrec, decodeCounters, writeCounters]
        rw [loopTail_cons4]

theorem loopIndices_eq (size : Nat) (hsize : size < 2 ^ 32) :
    ∀ (fuel k i : Nat) (fin : List Byte), i + k = size →
      min k (fin.length / 4 + 1) < fuel →
      loopIndices size fuel i fin
        = some ((List.range (min k (fin.length / 4))).map (fun j => i + j)) := by
  intro fuel
  induction fuel with
  | zero => intro k i fin _ hk; omega
  | succ fuel ih =>
    intro k i fin hik hk
    cases k with
    | zero =>
      have hi : ¬ i < size := by omega
      simp [loopIndices, hi]
    | succ k =>
      have hi : i < size := by omega
      have hmod : (i + 1) % 2 ^ 32 = i + 1 := Nat.mod_eq_of_lt (by omega)
      rcases fin with _ | ⟨b0, _ | ⟨b1, _ | ⟨b2, _ | ⟨b3, rest⟩⟩⟩⟩
      · simp [loopIndices, hi, fread]
      · simp [loopIndices, hi, fread]
      · simp [loopIndices, hi, fread]
      · simp [loopIndices, hi, fread]
      · have hrec := ih k (i + 1) rest (by omega)
          (by simp only [List.length_cons] at hk; omega)
        have hm : min (k + 1) ((b0 :: b1 :: b2 :: b3 :: rest).length / 4)
            = min k (rest.length / 4) + 1 := by
          simp only [List.length_cons]
          omega
        simp only [loopIndices, hi, fread, if_true, List.take, List.drop, hmod, hrec, hm]
        rw [List.range_succ_eq_map]
        simp only [List.map_cons, List.map_map, Nat.add_zero, Option.some.injEq,
          List.cons.injEq, true_and]
        apply List.map_congr_left
        intro j _
        simp only [Function.comp, Nat.succ_eq_add_one]
        omega

theorem reads_append (a b : List Event) : reads (a ++ b) = reads a + reads b := by
  induction a with
  | nil => simp [reads]
  | cons ev a ih =>
    cases ev <;> simp [reads, ih]
    omega

theorem reads_counterEvents (path buf : String) (vals : List Nat) :
    reads (counterEvents path buf vals) = vals.length := by
  induction vals with
  | nil => rfl
  | cons v vs ih => simp [counterEvents, reads, ih]

theorem decodeCounters_length (k : Nat) (l : List Byte) :
    (decodeCounters k l).length = min k (l.length / 4) := by
  rw [decodeCounters_eq_map_min]
  simp

/-- C17: for every channel count up to `2 ^ 32 - 1` and every sequence of
unread bytes (of length `L - 10`), the counter loop returns as soon as its
fuel exceeds `min size ((L - 10) / 4 + 1)`, and it makes exactly that many
iterations (one read each), fewer than the fuel `2 ^ 32` that `convert` gives; the index takes the values `0, 1, 2, ...` at its
increments, each below `size`, so that `i + 1` never exceeds `2 ^ 32 - 1`. -/
theorem counterLoop_terminates (e : Endian) (path buf : String) (size fuel : Nat)
    (fin : List Byte) (w : World)
    (hsize : size ≤ 2 ^ 32 - 1)
    (hfuel : min size (fin.length / 4 + 1) < fuel) :
    ∃ w1 evs, counterLoop e path buf size fuel 0 fin w = some w1 ∧
      w1.trace = w.trace ++ evs ∧
      reads evs = min size (fin.length / 4 + 1) ∧
      min size (fin.length / 4 + 1) < 2 ^ 32 ∧
      loopIndices size fuel 0 fin = some (List.range (min size (fin.length / 4))) ∧
      ∀ i ∈ List.range (min size (fin.length / 4)),
        i < size ∧ size ≤ 2 ^ 32 - 1 ∧ (i + 1) % 2 ^ 32 = i + 1 := by
  have hs : size < 2 ^ 32 := by omega
  refine ⟨_, counterEvents path buf (decodeCounters size fin) ++ tailEvents path size fin
      ++ [.fclose buf, .fclose path],
    counterLoop_fuel e path buf size hs fuel size 0 fin w (by omega) hfuel, ?_, ?_,
    by omega, ?_, ?_⟩
  · simp [cleanup_fout_trace, loopTail_trace, writeCounters_trace]
  · rw [reads_append, reads_append, reads_counterEvents, decodeCounters_length]
    unfold tailEvents
    split_ifs with h
    · simp only [reads]
      omega
    · simp only [reads]
      omega
  · rw [loopIndices_eq size hs fuel size 0 fin (by omega) hfuel]
    simp
  · intro i hi
    have hi2 := List.mem_range.mp hi
    have : i < size := lt_of_lt_of_le hi2 (Nat.min_le_left _ _)
    refine ⟨this, hsize, Nat.mod_eq_of_lt (by omega)⟩

/-- Witness of C17: a channel count of `2 ^ 32 - 1` over six unread bytes,
with the fuel that `convert` gives: two iterations, one increment. -/
theorem counterLoop_terminates_witness :
    ∃ w1 evs, counterLoop .little "a.dat" "a.dat.new.txt" (2 ^ 32 - 1) (2 ^ 32) 0
        [1, 0, 0, 0, 2, 0] (World.init (FS.single "a.dat" [])) = some w1 ∧
      w1.trace = evs ∧ reads evs = 2 ∧
      loopIndices (2 ^ 32 - 1) (2 ^ 32) 0 [1, 0, 0, 0, 2, 0] = some [0] := by
  obtain ⟨w1, evs, h1, h2, h3, -, h4, -⟩ :=
    counterLoop_terminates .little "a.dat" "a.dat.new.txt" (2 ^ 32 - 1) (2 ^ 32)
      [1, 0, 0, 0, 2, 0] (World.init (FS.single "a.dat" [])) (by decide) (by decide)
  exact ⟨w1, evs, h1, h2, h3, h4⟩

/-! ## The path buffer -/

theorem utf8ByteSize_go_append (a b : List Char) :
    String.utf8ByteSize.go (a ++ b) = String.utf8ByteSize.go a + String.utf8ByteSize.go b := by
  induction a with
  | nil => simp [String.utf8ByteSize.go]
  | cons c cs ih =>
    show String.utf8ByteSize.go (cs ++ b) + c.utf8Size
      = String.utf8ByteSize.go cs + c.utf8Size + String.utf8ByteSize.go b
    rw [ih]
    omega

theorem strlen_append (a b : String) : strlen (a ++ b) = strlen a + strlen b := by
  cases a with
  | mk l1 =>
    cases b with
    | mk l2 => exact utf8ByteSize_go_append l1 l2

/-- C18: whenever the length check of `convert` passes, every index that
`strcpy(buf, path)` and `strcat(buf, ".new.txt")` write lies inside `buf`,
and the string built with its NUL takes at most `FILENAME_MAX + 1` bytes, the
size of `buf`. The literal given to `strcat` has the length of `POSTFIX`; the
bound holds for every suffix that is not longer than `POSTFIX`, and for every
longer one some path passes the check and overruns `buf`. -/
theorem buf_in_bounds (FM : Nat) (path : String)
    (h : strlen path + strlen POSTFIX ≤ FM) :
    (∀ i ∈ strcpyWrites path, i < bufSize FM) ∧
    (∀ i ∈ strcatWrites path ".new.txt", i < bufSize FM) ∧
    strlen (path ++ ".new.txt") + 1 ≤ bufSize FM ∧
    strlen ".new.txt" = strlen POSTFIX ∧
    (∀ suffix, strlen suffix ≤ strlen POSTFIX →
      ∀ i ∈ strcatWrites path suffix, i < bufSize FM) ∧
    (∀ suffix, strlen POSTFIX < strlen suffix →
      strlen "" + strlen POSTFIX ≤ 8 ∧
      ∃ i ∈ strcatWrites "" suffix, ¬ i < bufSize 8) := by
  have h8 : strlen POSTFIX = 8 := by decide
  have h8b : strlen ".new.txt" = 8 := by decide
  refine ⟨?_, ?_, ?_, by rw [h8, h8b], ?_, ?_⟩
  · intro i hi
    have := List.mem_range.mp hi
    unfold bufSize
    omega
  · intro i hi
    simp only [strcatWrites, List.mem_map, List.mem_range] at hi
    obtain ⟨j, hj, rfl⟩ := hi
    unfold bufSize
    omega
  · rw [strlen_append]
    unfold bufSize
    omega
  · intro suffix hs i hi
    simp only [strcatWrites, List.mem_map, List.mem_range] at hi
    obtain ⟨j, hj, rfl⟩ := hi
    unfold bufSize
    omega
  · intro suffix hs
    have h0 : strlen "" = 0 := by decide
    refine ⟨by omega, strlen "" + strlen suffix, ?_, ?_⟩
    · simp only [strcatWrites, List.mem_map, List.mem_range]
      exact ⟨strlen suffix, by omega, rfl⟩
    · unfold bufSize
      omega

/-- Witness of C18: with `FILENAME_MAX = 13` the path "a.dat" passes the
check and the last write, of the NUL, is at index 13 of the 14 bytes. -/
theorem buf_in_bounds_witness :
    (∀ i ∈ strcatWrites "a.dat" ".new.txt", i < bufSize 13) ∧
    strlen ("a.dat" ++ ".new.txt") + 1 ≤ bufSize 13 ∧
    13 ∈ strcatWrites "a.dat" ".new.txt" :=
  ⟨(buf_in_bounds 13 "a.dat" (by decide)).2.1, (buf_in_bounds 13 "a.dat" (by decide)).2.2.1,
    by decide⟩

end Phadump
